import Mathlib

/-!
# easyzip: archive builder and extractor

A shallow embedding of `easyzip/easyzip.go` (functions `toSlash`, `absPath`,
`basePath`, `dirPath`, `ZipFile`, `ZipDir`, `addFiles`, `Unzip`) together with a
model of the operating-system and `archive/zip` services these functions call.

* Go strings are lists of characters (`Str`).
* The host is a slash-separator system, so `toSlash` returns its argument.
* The file system is a finite table from canonical paths (lists of names below
  the root) to objects; the root directory always exists.  There are no
  symbolic links and no permissions: a path operation fails only with
  `ENOENT`, `ENOTDIR` or `EISDIR`.
* The zip container is a free constructor `Data.zip`: a file holds either raw
  bytes or a sequence of entries; an entry read back carries a `Fault` that
  tells whether opening or copying it fails (a damaged container).
* The archive writer buffers: the destination file is empty from `os.Create`
  until the writer is closed.  The archive reader lists the entries when the
  archive is opened and reads the content of an entry from the archive file
  when the entry is copied.
* The recursion of `addFiles` carries a bound on its depth; on a well-formed
  state the bound that the callers pass is never reached.
* The progress callback only prints; of its calls, the model keeps the source
  path reported for each written entry.
-/

namespace Easyzip

/-! ## Strings and lexical path functions -/

/-- Go strings. -/
abbrev Str := List Char

/-- A character put in front of the first piece. -/
def pushChar (c : Char) : List Str → List Str
  | [] => [[c]]
  | h :: t => (c :: h) :: t

/-- Pieces of a string between slashes, empty pieces kept. -/
def splitSlash : Str → List Str
  | [] => [[]]
  | c :: s => if c = '/' then [] :: splitSlash s else pushChar c (splitSlash s)

/-- The string "/c1/c2/.../ck". -/
def suffix (rel : List Str) : Str := rel.flatMap (fun c => '/' :: c)

/-- The rooted slash-separated string of a list of names; the root is "/". -/
def render (cs : List Str) : Str := if cs = [] then ['/'] else suffix cs

/-- A name that can stand for a directory entry. -/
def validName (n : Str) : Prop := n ≠ [] ∧ n ≠ ['.'] ∧ n ≠ ['.', '.'] ∧ '/' ∉ n

instance (n : Str) : Decidable (validName n) := by unfold validName; infer_instance

/-- One step of lexical cleaning of a rooted path: empty and "." pieces are
dropped, ".." removes the last name (and is dropped at the root). -/
def cleanStep (acc : List Str) (c : Str) : List Str :=
  if c = [] ∨ c = ['.'] then acc
  else if c = ['.', '.'] then acc.dropLast
  else acc ++ [c]

/-- The names of the lexically cleaned form of a rooted path. -/
def cleanComps (p : Str) : List Str := (splitSlash p).foldl cleanStep []

/-- The library function `filepath.Clean` on a rooted path (the only paths it
is applied to here). -/
def Clean (p : Str) : Str := render (cleanComps p)

/-- The source function `toSlash` on a slash-separator host. -/
def toSlash (p : Str) : Str := p

/-- The library function `filepath.Base`: the last element of the path, "."
for the empty path and "/" for a path of slashes only. -/
def Base (p : Str) : Str :=
  if p = [] then ['.']
  else
    match ((splitSlash p).filter (fun c => c ≠ [])).getLast? with
    | none => ['/']
    | some c => c

/-- The library function `filepath.Dir` on a rooted path: the path up to its
last slash, cleaned. -/
def Dir (p : Str) : Str := render ((splitSlash p).dropLast.foldl cleanStep [])

/-- The source function `basePath`. -/
def basePath (p : Str) : Str := toSlash (Base p)

/-- The source function `dirPath`. -/
def dirPath (p : Str) : Str := toSlash (Dir p)

/-! ## File system -/

/-- Whether reading an archive entry fails, and where. -/
inductive Fault where
  | ok
  | openFails
  | copyFails
deriving DecidableEq, Repr

/-- File contents: raw bytes, or a zip container with its entries
(name, directory flag, fault, content). -/
inductive Data where
  | raw (bytes : List Nat)
  | zip (entries : List (Str × Bool × Fault × Data))

/-- A file-system object. -/
inductive Obj where
  | dir
  | file (d : Data)

/-- Whether the object is a directory (`FileInfo.IsDir`). -/
def Obj.isDir : Obj → Bool
  | .dir => true
  | .file _ => false

/-- System errors of path operations. -/
inductive Errno where
  | ENOENT
  | ENOTDIR
  | EISDIR
deriving DecidableEq, Repr

/-- The state of the file system and of the process: the table of objects below
the root and the working directory. -/
structure World where
  objs : List (List Str × Obj)
  cwd : List Str

/-- First object stored under a key. -/
def lookupObj (p : List Str) : List (List Str × Obj) → Option Obj
  | [] => none
  | e :: rest => if e.1 = p then some e.2 else lookupObj p rest

/-- The object at a canonical path; the root is a directory. -/
def lookup (w : World) (p : List Str) : Option Obj :=
  if p = [] then some .dir else lookupObj p w.objs

/-- The table with the object at `p` replaced or added. -/
def setObj (w : World) (p : List Str) (o : Obj) : World :=
  { w with objs := (p, o) :: w.objs.filter (fun e => e.1 ≠ p) }

/-- Path resolution: each piece is taken from a directory; empty and "."
pieces stay, ".." moves to the parent, a name moves to that child (which need
not exist). -/
def walkPath (w : World) : List Str → List Str → Except Errno (List Str)
  | cur, [] => .ok cur
  | cur, c :: cs =>
    match lookup w cur with
    | none => .error .ENOENT
    | some (.file _) => .error .ENOTDIR
    | some .dir =>
      if c = [] ∨ c = ['.'] then walkPath w cur cs
      else if c = ['.', '.'] then walkPath w cur.dropLast cs
      else walkPath w (cur ++ [c]) cs

/-- The canonical path a path string names. -/
def resolve (w : World) (s : Str) : Except Errno (List Str) :=
  if s = [] then .error .ENOENT
  else walkPath w (if s.head? = some '/' then [] else w.cwd) (splitSlash s)

/-- The library function `os.Stat`. -/
def stat (w : World) (s : Str) : Except Errno Obj :=
  match resolve w s with
  | .error e => .error e
  | .ok p =>
    match lookup w p with
    | none => .error .ENOENT
    | some o => .ok o

/-- The name `n` when `q` is the child `p/n`. -/
def childName (p q : List Str) : Option Str :=
  match q.getLast? with
  | none => none
  | some n => if q = p ++ [n] then some n else none

/-- Byte-wise order of names. -/
def strLe (a b : Str) : Prop := a.map Char.toNat ≤ b.map Char.toNat

instance : DecidableRel strLe := fun a b => by unfold strLe; infer_instance

/-- The library function `ioutil.ReadDir`: the names in a directory, sorted by
name. -/
def readDir (w : World) (s : Str) : Except Errno (List Str) :=
  match resolve w s with
  | .error e => .error e
  | .ok p =>
    match lookup w p with
    | none => .error .ENOENT
    | some (.file _) => .error .ENOTDIR
    | some .dir => .ok ((w.objs.filterMap (fun e => childName p e.1)).insertionSort strLe)

/-- The library functions `os.Open` and reading to the end, on a file. -/
def readFile (w : World) (s : Str) : Except Errno Data :=
  match resolve w s with
  | .error e => .error e
  | .ok p =>
    match lookup w p with
    | none => .error .ENOENT
    | some .dir => .error .EISDIR
    | some (.file d) => .ok d

/-- The library function `os.Create`: the file is created or truncated; the
result carries the canonical path of the open file. -/
def create (w : World) (s : Str) : Except Errno (World × List Str) :=
  match resolve w s with
  | .error e => .error e
  | .ok p =>
    match lookup w p with
    | some .dir => .error .EISDIR
    | _ => .ok (setObj w p (.file (.raw [])), p)

/-- The library function `os.RemoveAll`: the path and everything below it is
removed; a path that does not resolve is left alone. -/
def removeAll (w : World) (s : Str) : World :=
  match resolve w s with
  | .error _ => w
  | .ok p => { w with objs := w.objs.filter (fun e => ¬ p <+: e.1) }

/-- Directory creation along the pieces of a path, from directory `cur`. -/
def mkdirFrom : World → List Str → List Str → World × Option Errno
  | w, _, [] => (w, none)
  | w, cur, c :: cs =>
    if c = [] ∨ c = ['.'] then mkdirFrom w cur cs
    else if c = ['.', '.'] then mkdirFrom w cur.dropLast cs
    else
      match lookup w (cur ++ [c]) with
      | some .dir => mkdirFrom w (cur ++ [c]) cs
      | some (.file _) => (w, some .ENOTDIR)
      | none => mkdirFrom (setObj w (cur ++ [c]) .dir) (cur ++ [c]) cs

/-- The library function `os.MkdirAll`: the directory and its missing parents
are created; it fails when a piece on the way is a file. -/
def mkdirAll (w : World) (s : Str) : World × Option Errno :=
  if s = [] then (w, some .ENOENT)
  else mkdirFrom w (if s.head? = some '/' then [] else w.cwd) (splitSlash s)

/-- The library function `os.Getwd`. -/
def getwd (w : World) : Str := render w.cwd

/-- The library function `filepath.Abs`. -/
def Abs (w : World) (p : Str) : Str :=
  if p.head? = some '/' then Clean p else Clean (getwd w ++ '/' :: p)

/-- The source function `absPath`; `filepath.Abs` fails only when the working
directory cannot be read, which the model excludes. -/
def absPath (w : World) (p : Str) : Str := toSlash (Abs w p)

/-! ## Archive writer and the tree walk -/

/-- Errors returned by the archive operations. -/
inductive Err where
  | notExist (p : Str)
  | notADirectory (p : Str)
  | exist (p : Str)
  | sys (e : Errno)
  | format
  | openEntry
  | copyEntry
  | depth
deriving DecidableEq

/-- One entry handed to the archive writer: the entry name and content given to
`z.Create` and `io.Copy`, with the source path passed to the progress
callback for it. -/
structure Written where
  src : Str
  name : Str
  body : Data

/-- Whether a string ends in a slash; such an entry name marks a directory. -/
def endsWithSlash (s : Str) : Bool := s.getLast? = some '/'

/-- The entry as the container stores it. -/
def Written.toEntry (e : Written) : Str × Bool × Fault × Data :=
  (e.name, endsWithSlash e.name, .ok, e.body)

/-- A `for` loop over items that returns at the first error. -/
def eachItem (f : List Written → Str → List Written × Option Err) :
    List Written → List Str → List Written × Option Err
  | z, [] => (z, none)
  | z, n :: ns =>
    match f z n with
    | (z1, none) => eachItem f z1 ns
    | (z1, some e) => (z1, some e)

/-- The source function `addFiles`; `z` is the sequence of entries written so
far.  The first argument bounds the depth of the recursion. -/
def addFiles : Nat → World → List Written → Str → Str → Str → List Written × Option Err
  | 0, _, z, _, _, _ => (z, some .depth)
  | fuel + 1, w, z, src, self, dst =>
    if src = self then (z, none)
    else
      match stat w src with
      | .error e => (z, some (.sys e))
      | .ok i =>
        if i.isDir then
          match readDir w src with
          | .error e => (z, some (.sys e))
          | .ok items =>
            eachItem (fun z1 name =>
              addFiles fuel w z1 (src ++ '/' :: name) self
                (if dst.length = 0 then name else dst ++ '/' :: name)) z items
        else
          match readFile w src with
          | .error e => (z, some (.sys e))
          | .ok body => (z ++ [⟨src, dst, body⟩], none)

/-- Length of the longest canonical path in the table.  A walk of a tree of
this depth needs no more than `treeDepth w + 1` nested calls of `addFiles`, so
this is the bound `ZipFile` and `ZipDir` pass. -/
def treeDepth (w : World) : Nat := w.objs.foldr (fun e m => max e.1.length m) 0

/-- Outcome of an archive build: the file system afterwards, the entries
written, and the error returned. -/
structure Result where
  world : World
  written : List Written
  err : Option Err

/-- The source function `ZipFile`. -/
def ZipFile (w : World) (src : List Str) (dst : Str) : Result :=
  let abs_dst := absPath w dst
  let abs_src := src.map (absPath w)
  match create w abs_dst with
  | .error e => ⟨w, [], some (.sys e)⟩
  | .ok (w1, o) =>
    let r := eachItem (fun z f =>
      addFiles (treeDepth w1 + 1) w1 z f abs_dst (basePath f)) [] abs_src
    ⟨setObj w1 o (.file (.zip (r.1.map Written.toEntry))), r.1, r.2⟩

/-- The source function `ZipDir`. -/
def ZipDir (w : World) (src dst : Str) (overwrite create_root : Bool) : Result :=
  let abs_src := absPath w src
  let abs_dst := absPath w dst
  match stat w abs_src with
  | .error e =>
    if e = .ENOENT then ⟨w, [], some (.notExist src)⟩ else ⟨w, [], some (.sys e)⟩
  | .ok i =>
    if !i.isDir then ⟨w, [], some (.notADirectory src)⟩
    else
      match stat w abs_dst with
      | .error .ENOTDIR => ⟨w, [], some (.sys .ENOTDIR)⟩
      | .error .EISDIR => ⟨w, [], some (.sys .EISDIR)⟩
      | _ =>
        if overwrite then
          let w1 := removeAll w abs_dst
          match create w1 abs_dst with
          | .error e => ⟨w1, [], some (.sys e)⟩
          | .ok (w2, f) =>
            let dst1 := if create_root then basePath abs_src else []
            let r := addFiles (treeDepth w2 + 1) w2 [] abs_src abs_dst dst1
            ⟨setObj w2 f (.file (.zip (r.1.map Written.toEntry))), r.1, r.2⟩
        else ⟨w, [], some (.exist dst)⟩

/-! ## Extraction -/

/-- The method `FileInfo().IsDir()` of an archive entry: the entry carries the
directory flag, or its name ends in a slash. -/
def entryIsDir (f : Str × Bool × Fault × Data) : Bool := f.2.1 || endsWithSlash f.1

/-- The canonical path of the file that `zip.OpenReader` holds open. -/
def archivePath (w : World) (s : Str) : List Str :=
  match resolve w s with
  | .ok p => p
  | .error _ => []

/-- Whether `io.Copy` from an opened entry into the output file with canonical
path `h` fails: the entry is read from the archive file while it is copied, so
the copy fails for a damaged entry, and also when the output file, which
`os.Create` has just truncated, is the archive itself. -/
def copyBreaks (arch : List Str) (f : Str × Bool × Fault × Data) (h : List Str) : Prop :=
  f.2.2.1 = .copyFails ∨ h = arch

instance (arch : List Str) (f : Str × Bool × Fault × Data) (h : List Str) :
    Decidable (copyBreaks arch f h) := by unfold copyBreaks; infer_instance

/-- The body of the loop of the source function `Unzip`, for one entry
(name, directory flag, fault, content); `arch` is the canonical path of the
open archive. -/
def extractEntry (abs_dst : Str) (arch : List Str) (w : World)
    (f : Str × Bool × Fault × Data) : World × Option Err :=
  let file := abs_dst ++ '/' :: f.1
  if entryIsDir f then ((mkdirAll w file).1, none)
  else
    let w1 := (mkdirAll w (dirPath file)).1
    if f.2.2.1 = .openFails then (w1, some .openEntry)
    else
      match create w1 file with
      | .error e => (w1, some (.sys e))
      | .ok (w2, h) =>
        if copyBreaks arch f h then (w2, some .copyEntry)
        else (setObj w2 h (.file f.2.2.2), none)

/-- The loop of the source function `Unzip`. -/
def unzipLoop (abs_dst : Str) (arch : List Str) :
    World → List (Str × Bool × Fault × Data) → World × Option Err
  | w, [] => (w, none)
  | w, f :: fs =>
    match extractEntry abs_dst arch w f with
    | (w1, none) => unzipLoop abs_dst arch w1 fs
    | (w1, some e) => (w1, some e)

/-- The source function `Unzip`. -/
def Unzip (w : World) (src dst : Str) : World × Option Err :=
  let abs_src := absPath w src
  let abs_dst := if dst.length = 0 then getwd w else absPath w dst
  match readFile w abs_src with
  | .error e => (w, some (.sys e))
  | .ok (.raw _) => (w, some .format)
  | .ok (.zip r) => unzipLoop abs_dst (archivePath w abs_src) w r

/-! ## Observations used in the statements -/

/-- The entry names of the archive stored at a canonical path, if one is. -/
def archiveNames (w : World) (p : List Str) : Option (List Str) :=
  match lookup w p with
  | some (.file (.zip es)) => some (es.map (fun e => e.1))
  | _ => none

/-- The raw bytes of the file at a canonical path, if it is one. -/
def fileBytes (w : World) (p : List Str) : Option (List Nat) :=
  match lookup w p with
  | some (.file (.raw b)) => some b
  | _ => none

/-- Whether a canonical path is absent. -/
def absent (w : World) (p : List Str) : Bool :=
  match lookup w p with
  | none => true
  | some _ => false

/-- The pieces of a path that name something: not empty and not ".". -/
def names (cs : List Str) : List Str := cs.filter (fun c => c ≠ [] ∧ c ≠ ['.'])

/-- The canonical path that `absPath` gives for a path string: the cleaned
names of the string itself when it is rooted, else of the string appended to the
working directory. -/
def canonical (w : World) (s : Str) : List Str :=
  cleanComps (if s.head? = some '/' then s else getwd w ++ '/' :: s)

/-- The canonical path of the root under which `Unzip` extracts. -/
def destRoot (w : World) (dst : Str) : List Str :=
  if dst.length = 0 then w.cwd else canonical w dst

/-- Whether a canonical path is a directory. -/
def isDirAt (w : World) (p : List Str) : Bool :=
  match lookup w p with
  | some .dir => true
  | _ => false

/-- Well-formed state: no path is stored twice, stored paths are non-empty lists
of valid names, the parent of every stored path is a directory, and the
working directory is a list of valid names. -/
def WF (w : World) : Prop :=
  (w.objs.map Prod.fst).Nodup ∧
  (∀ e ∈ w.objs, e.1 ≠ [] ∧ ∀ n ∈ e.1, validName n) ∧
  (∀ e ∈ w.objs, isDirAt w e.1.dropLast = true) ∧
  (∀ n ∈ w.cwd, validName n)

instance (w : World) : Decidable (WF w) := by unfold WF; infer_instance

/-- The entry name `addFiles` builds for the relative path `rel` below a source
whose own entry name is `dst`. -/
def joinName (dst : Str) : List Str → Str
  | [] => dst
  | c :: rel => joinName (if dst.length = 0 then c else dst ++ '/' :: c) rel

/-- None of the path strings `addFiles` builds on the way from `src` down the
relative path `rel` equals `self`. -/
def NotSkipped (src self : Str) : List Str → Prop
  | [] => src ≠ self
  | c :: rel => src ≠ self ∧ NotSkipped (src ++ '/' :: c) self rel

/-- The entries `addFiles` writes when nothing fails. -/
def walk : Nat → World → Str → Str → Str → List Written
  | 0, _, _, _, _ => []
  | fuel + 1, w, src, self, dst =>
    if src = self then []
    else
      match stat w src with
      | .error _ => []
      | .ok .dir =>
        match readDir w src with
        | .error _ => []
        | .ok items =>
          items.flatMap (fun name =>
            walk fuel w (src ++ '/' :: name) self
              (if dst.length = 0 then name else dst ++ '/' :: name))
      | .ok (.file _) =>
        match readFile w src with
        | .error _ => []
        | .ok body => [⟨src, dst, body⟩]

/-! ## Example states -/

/-- Example tree: /proj/a.txt, /proj/sub/b.txt, and the directory /dest. -/
def projWorld : World :=
  { objs := [(["proj".toList], .dir),
             (["proj".toList, "a.txt".toList], .file (.raw [1, 2])),
             (["proj".toList, "sub".toList], .dir),
             (["proj".toList, "sub".toList, "b.txt".toList], .file (.raw [3])),
             (["dest".toList], .dir)],
    cwd := [] }

/-- Example tree with two files of the same name: /x/a.txt and /y/a.txt. -/
def twinWorld : World :=
  { objs := [(["x".toList], .dir),
             (["x".toList, "a.txt".toList], .file (.raw [1])),
             (["y".toList], .dir),
             (["y".toList, "a.txt".toList], .file (.raw [2]))],
    cwd := [] }

/-- Example: the archive /in.zip with a directory entry "a/" and a file entry
"b.txt", and a destination /dest in which "a" is a regular file. -/
def dirClashWorld : World :=
  { objs := [(["in.zip".toList], .file (.zip
               [("a/".toList, true, .ok, .raw []),
                ("b.txt".toList, false, .ok, .raw [7])])),
             (["dest".toList], .dir),
             (["dest".toList, "a".toList], .file (.raw [5]))],
    cwd := [] }

/-- Example: the archive /evil.zip with the entry "../evil.txt", and the
directory /dest. -/
def slipWorld : World :=
  { objs := [(["evil.zip".toList], .file (.zip
               [("../evil.txt".toList, false, .ok, .raw [6])])),
             (["dest".toList], .dir)],
    cwd := [] }

/-! ## Lemmas on strings -/

theorem splitSlash_ne_nil (s : Str) : splitSlash s ≠ [] := by
  cases s with
  | nil => simp [splitSlash]
  | cons c s =>
    unfold splitSlash
    split
    · simp
    · cases splitSlash s <;> simp [pushChar]

theorem pushChar_append (c : Char) (l m : List Str) (h : l ≠ []) :
    pushChar c (l ++ m) = pushChar c l ++ m := by
  cases l with
  | nil => contradiction
  | cons x l => simp [pushChar]

theorem splitSlash_append_slash (a b : Str) :
    splitSlash (a ++ '/' :: b) = splitSlash a ++ splitSlash b := by
  induction a with
  | nil => simp [splitSlash]
  | cons c a ih =>
    by_cases hc : c = '/'
    · simp [splitSlash, hc, ih]
    · have h1 : splitSlash (c :: (a ++ '/' :: b)) = pushChar c (splitSlash (a ++ '/' :: b)) := by
        simp [splitSlash, hc]
      have h2 : splitSlash (c :: a) = pushChar c (splitSlash a) := by
        simp [splitSlash, hc]
      rw [List.cons_append, h1, h2, ih]
      exact pushChar_append c _ _ (splitSlash_ne_nil a)

theorem splitSlash_noSlash (n : Str) (h : '/' ∉ n) : splitSlash n = [n] := by
  induction n with
  | nil => simp [splitSlash]
  | cons c n ih =>
    have hc : c ≠ '/' := fun e => h (by simp [e])
    have hn : '/' ∉ n := fun e => h (by simp [e])
    simp [splitSlash, hc, ih hn, pushChar]

theorem splitSlash_pieces (s : Str) : ∀ c ∈ splitSlash s, '/' ∉ c := by
  induction s with
  | nil => simp [splitSlash]
  | cons c s ih =>
    by_cases hc : c = '/'
    · intro x hx
      simp only [splitSlash, hc, if_true, List.mem_cons] at hx
      rcases hx with rfl | hx
      · simp
      · exact ih x hx
    · intro x hx
      simp only [splitSlash, hc, if_false] at hx
      cases hs : splitSlash s with
      | nil => exact absurd hs (splitSlash_ne_nil s)
      | cons h t =>
        rw [hs] at hx ih
        simp only [pushChar, List.mem_cons] at hx
        rcases hx with rfl | hx
        · have := ih h (by simp)
          simp only [List.mem_cons, not_or]
          exact ⟨fun e => hc e.symm, this⟩
        · exact ih x (by simp [hx])

theorem suffix_cons (c : Str) (rel : List Str) : suffix (c :: rel) = '/' :: c ++ suffix rel := by
  simp [suffix]

theorem suffix_append (a b : List Str) : suffix (a ++ b) = suffix a ++ suffix b := by
  simp [suffix]

theorem append_suffix_cons (s c : Str) (rel : List Str) :
    s ++ suffix (c :: rel) = (s ++ '/' :: c) ++ suffix rel := by
  simp [suffix]

theorem splitSlash_append_suffix (s : Str) (rel : List Str) (h : ∀ n ∈ rel, '/' ∉ n) :
    splitSlash (s ++ suffix rel) = splitSlash s ++ rel := by
  induction rel generalizing s with
  | nil => simp [suffix]
  | cons c rel ih =>
    rw [append_suffix_cons, ih _ (fun n hn => h n (by simp [hn])), splitSlash_append_slash,
      splitSlash_noSlash c (h c (by simp))]
    simp

theorem splitSlash_suffix (rel : List Str) (h : ∀ n ∈ rel, '/' ∉ n) :
    splitSlash (suffix rel) = [] :: rel := by
  have := splitSlash_append_suffix [] rel h
  simpa [splitSlash] using this

theorem suffix_injective (a b : List Str) (ha : ∀ n ∈ a, '/' ∉ n) (hb : ∀ n ∈ b, '/' ∉ n)
    (h : suffix a = suffix b) : a = b := by
  have h1 := splitSlash_suffix a ha
  have h2 := splitSlash_suffix b hb
  rw [h] at h1
  rw [h1] at h2
  simpa using h2

theorem validName_noSlash {n : Str} (h : validName n) : '/' ∉ n := h.2.2.2

theorem splitSlash_render (cs : List Str) (h : ∀ n ∈ cs, validName n) :
    splitSlash (render cs) = if cs = [] then [[], []] else [] :: cs := by
  unfold render
  split
  · simp [splitSlash]
  · exact splitSlash_suffix cs (fun n hn => validName_noSlash (h n hn))

theorem render_ne_nil (cs : List Str) : render cs ≠ [] := by
  unfold render
  split
  · simp
  · cases cs with
    | nil => contradiction
    | cons c cs => simp [suffix]

theorem render_head (cs : List Str) : (render cs).head? = some '/' := by
  unfold render
  split
  · simp
  · cases cs with
    | nil => contradiction
    | cons c cs => simp [suffix]

/-! ## Lemmas on cleaning and base names -/

theorem cleanStep_valid (acc : List Str) (c : Str) (hacc : ∀ n ∈ acc, validName n)
    (hc : '/' ∉ c) : ∀ n ∈ cleanStep acc c, validName n := by
  unfold cleanStep
  split
  · exact hacc
  · rename_i h1
    split
    · intro n hn
      exact hacc n (List.mem_of_mem_dropLast hn)
    · rename_i h2
      intro n hn
      simp only [List.mem_append, List.mem_singleton] at hn
      rcases hn with hn | rfl
      · exact hacc n hn
      · simp only [not_or] at h1
        exact ⟨h1.1, h1.2, h2, hc⟩

theorem foldl_cleanStep_valid (cs : List Str) (acc : List Str) (hacc : ∀ n ∈ acc, validName n)
    (hcs : ∀ c ∈ cs, '/' ∉ c) : ∀ n ∈ cs.foldl cleanStep acc, validName n := by
  induction cs generalizing acc with
  | nil => simpa using hacc
  | cons c cs ih =>
    simp only [List.foldl_cons]
    exact ih _ (cleanStep_valid acc c hacc (hcs c (by simp))) (fun x hx => hcs x (by simp [hx]))

theorem cleanComps_valid (p : Str) : ∀ n ∈ cleanComps p, validName n :=
  foldl_cleanStep_valid _ [] (by simp) (splitSlash_pieces p)

theorem canonical_valid (w : World) (s : Str) : ∀ n ∈ canonical w s, validName n :=
  cleanComps_valid _

theorem absPath_eq (w : World) (s : Str) : absPath w s = render (canonical w s) := by
  unfold absPath toSlash Abs canonical Clean
  split <;> rfl

theorem names_valid (cs : List Str) (h : ∀ n ∈ cs, validName n) : names cs = cs := by
  unfold names
  rw [List.filter_eq_self]
  intro n hn
  have := h n hn
  simp [this.1, this.2.1]

theorem names_append (a b : List Str) : names (a ++ b) = names a ++ names b := by
  simp [names]

theorem names_valid_all (cs : List Str) (h : ∀ c ∈ cs, '/' ∉ c) (h2 : ['.', '.'] ∉ cs) :
    ∀ n ∈ names cs, validName n := by
  intro n hn
  unfold names at hn
  simp only [List.mem_filter, decide_eq_true_eq] at hn
  exact ⟨hn.2.1, hn.2.2, fun e => h2 (e ▸ hn.1), h n hn.1⟩

theorem foldl_cleanStep_names (cs : List Str) (acc : List Str) (h : ['.', '.'] ∉ cs) :
    cs.foldl cleanStep acc = acc ++ names cs := by
  induction cs generalizing acc with
  | nil => simp [names]
  | cons c cs ih =>
    have hc : c ≠ ['.', '.'] := fun e => h (by simp [e])
    have hcs : ['.', '.'] ∉ cs := fun e => h (by simp [e])
    simp only [List.foldl_cons]
    rw [ih _ hcs]
    unfold cleanStep names
    by_cases h1 : c = [] ∨ c = ['.']
    · have : ¬ (c ≠ [] ∧ c ≠ ['.']) := by
        rcases h1 with h1 | h1 <;> simp [h1]
      simp [h1, List.filter_cons, this]
    · have h3 : c ≠ [] ∧ c ≠ ['.'] := by
        simp only [not_or] at h1; exact h1
      simp [h1, hc, List.filter_cons, h3]

theorem valid_no_dotdot (cs : List Str) (h : ∀ n ∈ cs, validName n) : ['.', '.'] ∉ cs :=
  fun e => (h _ e).2.2.1 rfl

/-- Pieces of a rooted clean string: an empty piece, then the names. -/
theorem names_splitSlash_render (cs : List Str) (h : ∀ n ∈ cs, validName n) :
    names (splitSlash (render cs)) = cs := by
  rw [splitSlash_render cs h]
  split
  · rename_i h0; simp [names, h0]
  · rw [show ([] : Str) :: cs = [[]] ++ cs from rfl, names_append, names_valid cs h]
    simp [names]

theorem dotdot_not_mem_splitSlash_render (cs : List Str) (h : ∀ n ∈ cs, validName n) :
    ['.', '.'] ∉ splitSlash (render cs) := by
  rw [splitSlash_render cs h]
  split
  · simp
  · intro e
    simp only [List.mem_cons] at e
    rcases e with e | e
    · simp at e
    · exact valid_no_dotdot cs h e

theorem cleanComps_render (cs : List Str) (h : ∀ n ∈ cs, validName n) :
    cleanComps (render cs) = cs := by
  unfold cleanComps
  rw [foldl_cleanStep_names _ _ (dotdot_not_mem_splitSlash_render cs h)]
  simp [names_splitSlash_render cs h]

theorem render_injective (a b : List Str) (ha : ∀ n ∈ a, validName n)
    (hb : ∀ n ∈ b, validName n) (h : render a = render b) : a = b := by
  rw [← cleanComps_render a ha, ← cleanComps_render b hb, h]

theorem render_append_suffix (cs rel : List Str) (h : cs ≠ []) :
    render cs ++ suffix rel = render (cs ++ rel) := by
  unfold render
  simp [h, suffix_append]

theorem Base_ne_nil (p : Str) : Base p ≠ [] := by
  unfold Base
  split
  · simp
  · split
    · simp
    · rename_i c hc
      have := List.mem_of_getLast?_eq_some hc
      simp only [List.mem_filter, decide_eq_true_eq] at this
      exact this.2

theorem Base_shape (p : Str) : '/' ∉ Base p ∨ Base p = ['/'] := by
  unfold Base
  split
  · left; simp
  · split
    · right; rfl
    · rename_i c hc
      have := List.mem_of_getLast?_eq_some hc
      simp only [List.mem_filter, decide_eq_true_eq] at this
      left
      exact splitSlash_pieces p c this.1

theorem lookupObj_mem {p : List Str} {objs : List (List Str × Obj)} {o : Obj}
    (h : lookupObj p objs = some o) : (p, o) ∈ objs := by
  induction objs with
  | nil => simp [lookupObj] at h
  | cons e rest ih =>
    unfold lookupObj at h
    split at h
    · rename_i he
      simp only [Option.some.injEq] at h
      subst h; subst he
      simp
    · exact List.mem_cons_of_mem _ (ih h)

theorem mem_lookupObj_some {p : List Str} {objs : List (List Str × Obj)} {o : Obj}
    (h : (p, o) ∈ objs) : ∃ o', lookupObj p objs = some o' := by
  induction objs with
  | nil => simp at h
  | cons e rest ih =>
    unfold lookupObj
    split
    · exact ⟨_, rfl⟩
    · rename_i he
      simp only [List.mem_cons] at h
      rcases h with h | h
      · subst h; simp at he
      · exact ih h

theorem mem_lookupObj {p : List Str} {objs : List (List Str × Obj)} {o : Obj}
    (hn : (objs.map Prod.fst).Nodup) (h : (p, o) ∈ objs) : lookupObj p objs = some o := by
  induction objs with
  | nil => simp at h
  | cons e rest ih =>
    simp only [List.map_cons, List.nodup_cons] at hn
    simp only [List.mem_cons] at h
    unfold lookupObj
    rcases h with h | h
    · subst h; simp
    · have : e.1 ≠ p := by
        intro he
        apply hn.1
        rw [he]
        exact List.mem_map_of_mem Prod.fst h
      simp [this, ih hn.2 h]

theorem lookupObj_filter_key (g : List Str → Bool) (q : List Str)
    (objs : List (List Str × Obj)) :
    lookupObj q (objs.filter (fun e => g e.1)) = if g q then lookupObj q objs else none := by
  induction objs with
  | nil => simp [lookupObj]
  | cons e rest ih =>
    rw [List.filter_cons]
    by_cases hq : e.1 = q
    · subst hq
      cases hg : g e.1
      · simp only [Bool.false_eq_true, if_false]
        rw [ih]; simp [hg]
      · simp [lookupObj]
    · cases hg : g e.1
      · simp only [Bool.false_eq_true, if_false, lookupObj, hq]
        exact ih
      · simp only [if_true, lookupObj, hq, if_false]
        exact ih

theorem lookupObj_filter_ne (p q : List Str) (objs : List (List Str × Obj)) (h : q ≠ p) :
    lookupObj q (objs.filter (fun e => decide (e.1 ≠ p))) = lookupObj q objs := by
  rw [lookupObj_filter_key (fun k => decide (k ≠ p)) q objs]
  simp [h]

theorem lookup_setObj_ne (w : World) (p q : List Str) (o : Obj) (h : q ≠ p) :
    lookup (setObj w p o) q = lookup w q := by
  unfold lookup setObj
  by_cases hq : q = []
  · simp [hq]
  · simp only [hq, if_false, lookupObj]
    have : p ≠ q := fun x => h x.symm
    simp only [this, if_false]
    exact lookupObj_filter_ne p q w.objs h

theorem lookup_setObj_self (w : World) (p : List Str) (o : Obj) (h : p ≠ []) :
    lookup (setObj w p o) p = some o := by
  simp [lookup, setObj, h, lookupObj]

theorem lookup_root (w : World) : lookup w [] = some .dir := by simp [lookup]

theorem lookupObj_filter_under (p q : List Str) (objs : List (List Str × Obj)) :
    lookupObj q (objs.filter (fun e => decide (¬ p <+: e.1))) =
      if p <+: q then none else lookupObj q objs := by
  rw [lookupObj_filter_key (fun k => decide (¬ p <+: k)) q objs]
  by_cases h : p <+: q <;> simp [h]

theorem length_le_treeDepth_of_mem (objs : List (List Str × Obj)) (e : List Str × Obj)
    (h : e ∈ objs) : e.1.length ≤ objs.foldr (fun e m => max e.1.length m) 0 := by
  induction objs with
  | nil => simp at h
  | cons x rest ih =>
    simp only [List.mem_cons] at h
    simp only [List.foldr_cons]
    rcases h with h | h
    · subst h; exact le_max_left _ _
    · exact le_trans (ih h) (le_max_right _ _)

theorem lookup_length_le {w : World} {p : List Str} {o : Obj} (h : lookup w p = some o) :
    p.length ≤ treeDepth w := by
  unfold lookup at h
  split at h
  · rename_i hp; simp [hp]
  · exact length_le_treeDepth_of_mem w.objs (p, o) (lookupObj_mem h)

theorem lookup_some_mem {w : World} {p : List Str} {o : Obj} (h : lookup w p = some o)
    (hp : p ≠ []) : (p, o) ∈ w.objs := by
  unfold lookup at h
  simp only [hp, if_false] at h
  exact lookupObj_mem h

theorem isDirAt_iff (w : World) (p : List Str) : isDirAt w p = true ↔ lookup w p = some .dir := by
  unfold isDirAt
  cases h : lookup w p with
  | none => simp
  | some o => cases o <;> simp

/-! ## Consequences of well-formedness -/

theorem WF.lookup_mem {w : World} (hw : WF w) {p : List Str} {o : Obj} (h : (p, o) ∈ w.objs) :
    lookup w p = some o := by
  have hp : p ≠ [] := (hw.2.1 (p, o) h).1
  unfold lookup
  simp only [hp, if_false]
  exact mem_lookupObj hw.1 h

theorem WF.valid {w : World} (hw : WF w) {p : List Str} {o : Obj} (h : lookup w p = some o) :
    ∀ n ∈ p, validName n := by
  by_cases hp : p = []
  · subst hp; simp
  · exact (hw.2.1 (p, o) (lookup_some_mem h hp)).2

theorem WF.parent {w : World} (hw : WF w) {q : List Str} {n : Str} {o : Obj}
    (h : lookup w (q ++ [n]) = some o) : lookup w q = some .dir := by
  have hm := lookup_some_mem h (by simp)
  have := hw.2.2.1 _ hm
  simp only [List.dropLast_concat] at this
  exact (isDirAt_iff w q).1 this

theorem WF.above_dir {w : World} (hw : WF w) (q r : List Str) {o : Obj}
    (h : lookup w (q ++ r) = some o) (hr : r ≠ []) : lookup w q = some .dir := by
  induction r using List.reverseRecOn generalizing o with
  | nil => contradiction
  | append_singleton r n ih =>
    rw [← List.append_assoc] at h
    have hp := hw.parent h
    by_cases h0 : r = []
    · subst h0; simpa using hp
    · exact ih hp h0

theorem WF.file_leaf {w : World} (hw : WF w) (q r : List Str) {d : Data} {o : Obj}
    (hq : lookup w q = some (.file d)) (h : lookup w (q ++ r) = some o) : r = [] := by
  by_contra hr
  have := hw.above_dir q r h hr
  rw [hq] at this
  simp at this

theorem WF.dropLast_dir {w : World} (hw : WF w) {p : List Str} {o : Obj}
    (h : lookup w p = some o) : lookup w p.dropLast = some .dir := by
  rcases List.eq_nil_or_concat p with hp | ⟨q, n, hp⟩
  · subst hp; simp [lookup]
  · subst hp
    simp only [List.concat_eq_append, List.dropLast_concat]
    simp only [List.concat_eq_append] at h
    exact hw.parent h

/-! ## Lemmas on path resolution -/

theorem walkPath_cons_ok {w : World} {cur : List Str} {c : Str} {cs : List Str} {t : List Str}
    (h : walkPath w cur (c :: cs) = .ok t) :
    lookup w cur = some .dir ∧
      walkPath w (if c = [] ∨ c = ['.'] then cur else if c = ['.', '.'] then cur.dropLast
        else cur ++ [c]) cs = .ok t := by
  unfold walkPath at h
  cases hl : lookup w cur with
  | none => simp [hl] at h
  | some o =>
    cases o with
    | file d => simp [hl] at h
    | dir =>
      simp only [hl] at h
      refine ⟨rfl, ?_⟩
      by_cases h1 : c = [] ∨ c = ['.']
      · simp only [h1, if_true] at h ⊢; exact h
      · by_cases h2 : c = ['.', '.']
        · simp only [h1, if_false, h2, if_true] at h ⊢; exact h
        · simp only [h1, if_false, h2] at h ⊢; exact h

theorem walkPath_cons_dir {w : World} {cur : List Str} (c : Str) (cs : List Str)
    (h : lookup w cur = some .dir) :
    walkPath w cur (c :: cs) =
      walkPath w (if c = [] ∨ c = ['.'] then cur else if c = ['.', '.'] then cur.dropLast
        else cur ++ [c]) cs := by
  rw [walkPath]
  simp only [h]
  split
  · rfl
  · split <;> rfl

theorem walkPath_append {w : World} (cs ds : List Str) {cur q : List Str}
    (h : walkPath w cur cs = .ok q) : walkPath w cur (cs ++ ds) = walkPath w q ds := by
  induction cs generalizing cur with
  | nil => simp only [walkPath, Except.ok.injEq] at h; subst h; rfl
  | cons c cs ih =>
    have ⟨h1, h2⟩ := walkPath_cons_ok h
    rw [List.cons_append, walkPath_cons_dir c _ h1]
    exact ih h2

theorem walkPath_names {w : World} (cs : List Str) {cur t : List Str}
    (hd : ['.', '.'] ∉ cs) (h : walkPath w cur cs = .ok t) : t = cur ++ names cs := by
  induction cs generalizing cur with
  | nil => simp only [walkPath, Except.ok.injEq] at h; simp [names, h]
  | cons c cs ih =>
    have hc : c ≠ ['.', '.'] := fun e => hd (by simp [e])
    have hcs : ['.', '.'] ∉ cs := fun e => hd (by simp [e])
    have ⟨_, h2⟩ := walkPath_cons_ok h
    have := ih hcs h2
    rw [this]
    unfold names
    by_cases h1 : c = [] ∨ c = ['.']
    · have h3 : ¬ (c ≠ [] ∧ c ≠ ['.']) := by
        rcases h1 with h1 | h1 <;> simp [h1]
      simp [h1, List.filter_cons, h3]
    · have h3 : c ≠ [] ∧ c ≠ ['.'] := by
        simp only [not_or] at h1; exact h1
      simp [h1, hc, List.filter_cons, h3]

theorem walkPath_mono {w w' : World} (hm : ∀ q, lookup w q = some .dir → lookup w' q = some .dir)
    (cs : List Str) {cur t : List Str} (h : walkPath w cur cs = .ok t) :
    walkPath w' cur cs = .ok t := by
  induction cs generalizing cur with
  | nil => simpa [walkPath] using h
  | cons c cs ih =>
    have ⟨h1, h2⟩ := walkPath_cons_ok h
    rw [walkPath_cons_dir c _ (hm _ h1)]
    exact ih h2

theorem resolve_ok_ne_nil {w : World} {s : Str} {p : List Str} (h : resolve w s = .ok p) :
    s ≠ [] := by
  intro e
  simp [resolve, e] at h

theorem resolve_mono {w w' : World} (hc : w'.cwd = w.cwd)
    (hm : ∀ q, lookup w q = some .dir → lookup w' q = some .dir)
    {s : Str} {t : List Str} (h : resolve w s = .ok t) : resolve w' s = .ok t := by
  have hs := resolve_ok_ne_nil h
  unfold resolve at h ⊢
  simp only [hs, if_false] at h ⊢
  rw [hc]
  exact walkPath_mono hm _ h

theorem head?_append_of_ne_nil (s t : Str) (h : s ≠ []) : (s ++ t).head? = s.head? := by
  cases s with
  | nil => contradiction
  | cons c s => rfl

/-- The child path string built by `addFiles` names the child. -/
theorem resolve_child {w : World} {src : Str} {p : List Str} {n : Str}
    (h : resolve w src = .ok p) (hp : lookup w p = some .dir) (hn : validName n) :
    resolve w (src ++ '/' :: n) = .ok (p ++ [n]) := by
  have hs := resolve_ok_ne_nil h
  unfold resolve at h ⊢
  simp only [hs, if_false] at h
  have hne : src ++ '/' :: n ≠ [] := by simp
  simp only [hne, if_false]
  rw [head?_append_of_ne_nil src _ hs, splitSlash_append_slash, walkPath_append _ _ h,
    splitSlash_noSlash n hn.2.2.2, walkPath_cons_dir n [] hp]
  have h1 : ¬ (n = [] ∨ n = ['.']) := by
    simp only [not_or]; exact ⟨hn.1, hn.2.1⟩
  simp [h1, hn.2.2.1, walkPath]

/-- A path string without ".." pieces that resolves, resolves to its names. -/
theorem resolve_rooted_names {w : World} {s : Str} {t : List Str}
    (hr : s.head? = some '/') (hd : ['.', '.'] ∉ splitSlash s) (h : resolve w s = .ok t) :
    t = names (splitSlash s) := by
  have hs := resolve_ok_ne_nil h
  unfold resolve at h
  simp only [hs, if_false, hr, if_true] at h
  simpa using walkPath_names _ hd h

theorem resolve_absPath {w w' : World} {s : Str} {t : List Str}
    (h : resolve w' (absPath w s) = .ok t) : t = canonical w s := by
  rw [absPath_eq] at h
  have hv := canonical_valid w s
  have := resolve_rooted_names (render_head _) (dotdot_not_mem_splitSlash_render _ hv) h
  rw [this, names_splitSlash_render _ hv]

theorem stat_ok {w : World} {s : Str} {o : Obj} (h : stat w s = .ok o) :
    ∃ p, resolve w s = .ok p ∧ lookup w p = some o := by
  unfold stat at h
  cases hr : resolve w s with
  | error e => simp [hr] at h
  | ok p =>
    simp only [hr] at h
    cases hl : lookup w p with
    | none => simp [hl] at h
    | some o' =>
      simp only [hl, Except.ok.injEq] at h
      exact ⟨p, rfl, by rw [← h, hl]⟩

theorem stat_of_resolve {w : World} {s : Str} {p : List Str} {o : Obj}
    (h : resolve w s = .ok p) (hl : lookup w p = some o) : stat w s = .ok o := by
  simp [stat, h, hl]

theorem readFile_of_resolve {w : World} {s : Str} {p : List Str} {d : Data}
    (h : resolve w s = .ok p) (hl : lookup w p = some (.file d)) : readFile w s = .ok d := by
  simp [readFile, h, hl]

/-! ## Directory listing -/

theorem childName_eq_some (p q : List Str) (n : Str) : childName p q = some n ↔ q = p ++ [n] := by
  unfold childName
  constructor
  · intro h
    cases hl : q.getLast? with
    | none => simp [hl] at h
    | some m =>
      simp only [hl] at h
      split at h
      · rename_i hq
        simp only [Option.some.injEq] at h
        rw [← h]; exact hq
      · simp at h
  · intro h
    subst h
    simp

theorem readDir_of_resolve {w : World} {s : Str} {p : List Str}
    (h : resolve w s = .ok p) (hl : lookup w p = some .dir) :
    readDir w s = .ok ((w.objs.filterMap (fun e => childName p e.1)).insertionSort strLe) := by
  simp [readDir, h, hl]

theorem mem_children (w : World) (p : List Str) (n : Str) :
    n ∈ (w.objs.filterMap (fun e => childName p e.1)).insertionSort strLe ↔
      ∃ o, (p ++ [n], o) ∈ w.objs := by
  rw [(List.perm_insertionSort strLe _).mem_iff, List.mem_filterMap]
  constructor
  · rintro ⟨e, he, hc⟩
    rw [childName_eq_some] at hc
    exact ⟨e.2, by rw [← hc]; exact he⟩
  · rintro ⟨o, ho⟩
    exact ⟨(p ++ [n], o), ho, by rw [childName_eq_some]⟩

theorem children_nodup (w : World) (hw : WF w) (p : List Str) :
    ((w.objs.filterMap (fun e => childName p e.1)).insertionSort strLe).Nodup := by
  rw [(List.perm_insertionSort strLe _).nodup_iff]
  have : w.objs.filterMap (fun e => childName p e.1) =
      (w.objs.map Prod.fst).filterMap (childName p) := by
    rw [List.filterMap_map]; rfl
  rw [this]
  refine List.Nodup.filterMap ?_ hw.1
  intro a a' b hb hb'
  simp only [Option.mem_def, childName_eq_some] at hb hb'
  rw [hb, hb']

/-! ## The tree walk -/

theorem eachItem_ok (f : List Written → Str → List Written × Option Err)
    (g : Str → List Written) (items : List Str) (z : List Written)
    (h : ∀ z n, n ∈ items → f z n = (z ++ g n, none)) :
    eachItem f z items = (z ++ items.flatMap g, none) := by
  induction items generalizing z with
  | nil => simp [eachItem]
  | cons n ns ih =>
    unfold eachItem
    rw [h z n (by simp)]
    simp only
    rw [ih _ (fun z m hm => h z m (by simp [hm]))]
    simp [List.flatMap_cons]

theorem child_facts {w : World} (hw : WF w) {src : Str} {p : List Str}
    (hr : resolve w src = .ok p) (hp : lookup w p = some .dir) {n : Str}
    (hn : n ∈ (w.objs.filterMap (fun e => childName p e.1)).insertionSort strLe) :
    validName n ∧ resolve w (src ++ '/' :: n) = .ok (p ++ [n]) ∧
      ∃ o, lookup w (p ++ [n]) = some o := by
  obtain ⟨o, ho⟩ := (mem_children w p n).1 hn
  have hl := hw.lookup_mem ho
  have hv : validName n := hw.valid hl n (by simp)
  exact ⟨hv, resolve_child hr hp hv, o, hl⟩

theorem addFiles_eq_walk (fuel : Nat) (w : World) (hw : WF w) (z : List Written)
    (src self dst : Str) (p : List Str) (o : Obj)
    (hr : resolve w src = .ok p) (hl : lookup w p = some o)
    (hf : treeDepth w + 1 ≤ fuel + p.length) :
    addFiles fuel w z src self dst = (z ++ walk fuel w src self dst, none) := by
  induction fuel generalizing z src dst p o with
  | zero =>
    have := lookup_length_le hl
    omega
  | succ fuel ih =>
    unfold addFiles walk
    by_cases hs : src = self
    · simp [hs]
    · simp only [hs, if_false]
      rw [stat_of_resolve hr hl]
      cases o with
      | dir =>
        simp only [Obj.isDir, if_true]
        rw [readDir_of_resolve hr hl]
        simp only
        apply eachItem_ok
        intro z1 n hn
        obtain ⟨_, hrc, oc, hlc⟩ := child_facts hw hr hl hn
        exact ih z1 _ _ _ oc hrc hlc (by simp; omega)
      | file d =>
        simp only [Obj.isDir, Bool.false_eq_true, if_false]
        rw [readFile_of_resolve hr hl]

theorem NotSkipped.ne {src self : Str} {rel : List Str} (h : NotSkipped src self rel) :
    src ≠ self := by
  cases rel with
  | nil => exact h
  | cons c rel => exact h.1

theorem mem_walk (fuel : Nat) (w : World) (hw : WF w)
    (src self dst : Str) (p : List Str) (o : Obj)
    (hr : resolve w src = .ok p) (hl : lookup w p = some o)
    (hf : treeDepth w + 1 ≤ fuel + p.length) (e : Written) :
    e ∈ walk fuel w src self dst ↔
      ∃ rel body, lookup w (p ++ rel) = some (.file body) ∧ NotSkipped src self rel ∧
        e = ⟨src ++ suffix rel, joinName dst rel, body⟩ := by
  induction fuel generalizing src dst p o with
  | zero =>
    have := lookup_length_le hl
    omega
  | succ fuel ih =>
    unfold walk
    by_cases hs : src = self
    · rw [if_pos hs]
      simp only [List.not_mem_nil, false_iff]
      rintro ⟨rel, body, _, hns, _⟩
      exact hns.ne hs
    · simp only [hs, if_false]
      rw [stat_of_resolve hr hl]
      cases o with
      | dir =>
        simp only
        rw [readDir_of_resolve hr hl]
        simp only [List.mem_flatMap]
        constructor
        · rintro ⟨n, hn, he⟩
          obtain ⟨_, hrc, oc, hlc⟩ := child_facts hw hr hl hn
          obtain ⟨rel, body, h1, h2, h3⟩ :=
            (ih _ _ _ oc hrc hlc (by simp; omega)).1 he
          refine ⟨n :: rel, body, ?_, ⟨hs, h2⟩, ?_⟩
          · simpa using h1
          · rw [h3, append_suffix_cons]; rfl
        · rintro ⟨rel, body, h1, h2, h3⟩
          cases rel with
          | nil =>
            simp only [List.append_nil] at h1
            rw [hl] at h1
            simp at h1
          | cons n rel =>
            have h1' : lookup w (p ++ [n] ++ rel) = some (.file body) := by simpa using h1
            have hn : n ∈ (w.objs.filterMap (fun e => childName p e.1)).insertionSort strLe := by
              rw [mem_children]
              by_cases h0 : rel = []
              · subst h0
                exact ⟨_, lookup_some_mem (by simpa using h1') (by simp)⟩
              · exact ⟨_, lookup_some_mem (hw.above_dir _ _ h1' h0) (by simp)⟩
            refine ⟨n, hn, ?_⟩
            obtain ⟨_, hrc, oc, hlc⟩ := child_facts hw hr hl hn
            rw [ih _ _ _ oc hrc hlc (by simp; omega)]
            refine ⟨rel, body, h1', h2.2, ?_⟩
            rw [h3, append_suffix_cons]; rfl
      | file d =>
        simp only
        rw [readFile_of_resolve hr hl]
        simp only [List.mem_singleton]
        constructor
        · intro he
          exact ⟨[], d, by simpa using hl, hs, by simpa [suffix, joinName] using he⟩
        · rintro ⟨rel, body, h1, _, h3⟩
          have h0 := hw.file_leaf p rel hl h1
          subst h0
          simp only [List.append_nil] at h1
          rw [hl] at h1
          simp only [Option.some.injEq, Obj.file.injEq] at h1
          subst h1
          simpa [suffix, joinName] using h3

/-! ## Entry names -/

theorem joinName_of_ne_nil (dst : Str) (rel : List Str) (h : dst ≠ []) :
    joinName dst rel = dst ++ suffix rel := by
  induction rel generalizing dst with
  | nil => simp [joinName, suffix]
  | cons c rel ih =>
    have hl : dst.length ≠ 0 := by simpa using h
    unfold joinName
    simp only [hl, if_false]
    rw [ih _ (by simp), append_suffix_cons]

theorem joinName_nil_cons (n : Str) (rel : List Str) (h : n ≠ []) :
    joinName [] (n :: rel) = n ++ suffix rel := by
  unfold joinName
  simp only [List.length_nil, if_true]
  exact joinName_of_ne_nil n rel h

theorem joinName_cons (dst n : Str) (rel : List Str) :
    joinName dst (n :: rel) = joinName (if dst.length = 0 then n else dst ++ '/' :: n) rel := by
  rw [joinName]

theorem joinName_injective (dst : Str) (a b : List Str) (ha : ∀ n ∈ a, validName n)
    (hb : ∀ n ∈ b, validName n) (ha0 : a ≠ []) (hb0 : b ≠ [])
    (h : joinName dst a = joinName dst b) : a = b := by
  by_cases hd : dst = []
  · subst hd
    cases a with
    | nil => contradiction
    | cons x a =>
      cases b with
      | nil => contradiction
      | cons y b =>
        have hx := ha x (by simp)
        have hy := hb y (by simp)
        rw [joinName_nil_cons x a hx.1, joinName_nil_cons y b hy.1] at h
        have h1 := splitSlash_append_suffix x a
          (fun n hn => validName_noSlash (ha n (by simp [hn])))
        have h2 := splitSlash_append_suffix y b
          (fun n hn => validName_noSlash (hb n (by simp [hn])))
        rw [h, h2, splitSlash_noSlash x hx.2.2.2, splitSlash_noSlash y hy.2.2.2] at h1
        simpa using h1.symm
  · rw [joinName_of_ne_nil dst a hd, joinName_of_ne_nil dst b hd] at h
    exact suffix_injective a b (fun n hn => validName_noSlash (ha n hn))
      (fun n hn => validName_noSlash (hb n hn)) (List.append_cancel_left h)

/-- No two entries of one walk share a name. -/
theorem walk_names_pairwise (fuel : Nat) (w : World) (hw : WF w)
    (src self dst : Str) (p : List Str) (o : Obj)
    (hr : resolve w src = .ok p) (hl : lookup w p = some o)
    (hf : treeDepth w + 1 ≤ fuel + p.length) :
    (walk fuel w src self dst).Pairwise (fun a b => a.name ≠ b.name) := by
  induction fuel generalizing src dst p o with
  | zero =>
    have := lookup_length_le hl
    omega
  | succ fuel ih =>
    unfold walk
    by_cases hs : src = self
    · rw [if_pos hs]; exact List.Pairwise.nil
    · simp only [hs, if_false]
      rw [stat_of_resolve hr hl]
      cases o with
      | dir =>
        simp only
        rw [readDir_of_resolve hr hl]
        simp only
        rw [List.pairwise_flatMap]
        constructor
        · intro n hn
          obtain ⟨_, hrc, oc, hlc⟩ := child_facts hw hr hl hn
          exact ih _ _ _ oc hrc hlc (by simp; omega)
        · have hnd := children_nodup w hw p
          refine List.Pairwise.imp_of_mem ?_ hnd
          intro n m hn hm hnm x hx y hy hxy
          obtain ⟨hvn, hrn, o1, hln⟩ := child_facts hw hr hl hn
          obtain ⟨hvm, hrm, o2, hlm⟩ := child_facts hw hr hl hm
          obtain ⟨r1, b1, h1, _, e1⟩ :=
            (mem_walk fuel w hw _ _ _ _ o1 hrn hln (by simp; omega) x).1 hx
          obtain ⟨r2, b2, h2, _, e2⟩ :=
            (mem_walk fuel w hw _ _ _ _ o2 hrm hlm (by simp; omega) y).1 hy
          have hv1 : ∀ k ∈ n :: r1, validName k := by
            intro k hk
            exact hw.valid h1 k (by simp only [List.mem_cons] at hk; simp [hk])
          have hv2 : ∀ k ∈ m :: r2, validName k := by
            intro k hk
            exact hw.valid h2 k (by simp only [List.mem_cons] at hk; simp [hk])
          have hx' : x.name = joinName dst (n :: r1) := by rw [e1, joinName_cons]
          have hy' : y.name = joinName dst (m :: r2) := by rw [e2, joinName_cons]
          rw [hx', hy'] at hxy
          have := joinName_injective dst _ _ hv1 hv2 (by simp) (by simp) hxy
          simp only [List.cons.injEq] at this
          exact hnm this.1
      | file d =>
        simp only
        rw [readFile_of_resolve hr hl]
        exact List.pairwise_singleton _ _

/-! ## Skipping the archive itself -/

/-- When no path built on the way down `rel` names the archive, nothing on the
way is skipped. -/
theorem notSkipped_of_names (src self : Str) (rel : List Str)
    (hv : ∀ n ∈ rel, validName n)
    (h : ∀ r, r <+: rel → names (splitSlash src) ++ r ≠ names (splitSlash self)) :
    NotSkipped src self rel := by
  induction rel generalizing src with
  | nil =>
    intro e
    apply h [] (List.prefix_refl _)
    rw [e]; simp
  | cons c rel ih =>
    refine ⟨?_, ?_⟩
    · intro e
      apply h [] (List.nil_prefix)
      rw [e]; simp
    · apply ih _ (fun n hn => hv n (by simp [hn]))
      intro r hr
      have hc := hv c (by simp)
      rw [splitSlash_append_slash, names_append, splitSlash_noSlash c hc.2.2.2,
        names_valid [c] (by simpa using hc), List.append_assoc]
      exact h (c :: r) (by simpa using hr)

/-- For clean path strings below the root, a path is skipped exactly when it
names the archive. -/
theorem notSkipped_render (ps pa rel : List Str) (hps : ∀ n ∈ ps, validName n)
    (hpa : ∀ n ∈ pa, validName n) (hv : ∀ n ∈ rel, validName n) (h0 : ps ≠ []) :
    NotSkipped (render ps) (render pa) rel ↔ ∀ r, r <+: rel → ps ++ r ≠ pa := by
  induction rel generalizing ps with
  | nil =>
    simp only [NotSkipped, List.prefix_nil]
    constructor
    · intro h r hr e
      subst hr
      simp only [List.append_nil] at e
      exact h (by rw [e])
    · intro h e
      exact h [] rfl (by simpa using render_injective ps pa hps hpa e)
  | cons c rel ih =>
    have hc := hv c (by simp)
    have hps' : ∀ n ∈ ps ++ [c], validName n := by
      intro n hn
      simp only [List.mem_append, List.mem_singleton] at hn
      rcases hn with hn | rfl
      · exact hps n hn
      · exact hc
    have hstr : render ps ++ '/' :: c = render (ps ++ [c]) := by
      rw [← render_append_suffix ps [c] h0]
      simp [suffix]
    simp only [NotSkipped]
    rw [hstr, ih (ps ++ [c]) hps' (fun n hn => hv n (by simp [hn])) (by simp)]
    constructor
    · rintro ⟨h1, h2⟩ r hr e
      cases r with
      | nil =>
        simp only [List.append_nil] at e
        exact h1 (by rw [e])
      | cons x r =>
        have hx : x = c ∧ r <+: rel := by
          simpa [List.cons_prefix_cons] using hr
        obtain ⟨rfl, hr'⟩ := hx
        exact h2 r hr' (by simpa using e)
    · intro h
      refine ⟨?_, ?_⟩
      · intro e
        exact h [] List.nil_prefix (by simpa using render_injective ps pa hps hpa e)
      · intro r hr e
        exact h (c :: r) (by simpa [List.cons_prefix_cons] using hr) (by simpa using e)

/-! ## Well-formedness is kept by the operations -/

theorem lookup_removeAll {w : World} {s : Str} {p : List Str} (h : resolve w s = .ok p)
    (q : List Str) (hq : ¬ p <+: q) : lookup (removeAll w s) q = lookup w q := by
  unfold removeAll
  simp only [h]
  unfold lookup
  split
  · rfl
  · simp only
    rw [lookupObj_filter_under]
    simp [hq]

theorem removeAll_cwd (w : World) (s : Str) : (removeAll w s).cwd = w.cwd := by
  unfold removeAll
  split <;> rfl

theorem WF_removeAll (w : World) (hw : WF w) (s : Str) : WF (removeAll w s) := by
  cases hr : resolve w s with
  | error e => simp only [removeAll, hr]; exact hw
  | ok p =>
    have hobjs : (removeAll w s).objs = w.objs.filter (fun e => decide (¬ p <+: e.1)) := by
      simp only [removeAll, hr]
    refine ⟨?_, ?_, ?_, ?_⟩
    · rw [hobjs]
      exact List.Nodup.sublist (List.Sublist.map _ (List.filter_sublist _)) hw.1
    · intro e he
      rw [hobjs] at he
      exact hw.2.1 e (List.mem_of_mem_filter he)
    · intro e he
      rw [hobjs] at he
      have hm := List.mem_of_mem_filter he
      have hp : ¬ p <+: e.1 := by simpa using (List.mem_filter.1 he).2
      rw [isDirAt_iff, lookup_removeAll hr]
      · exact (isDirAt_iff _ _).1 (hw.2.2.1 e hm)
      · intro hx
        exact hp (hx.trans (List.dropLast_prefix _))
    · rw [removeAll_cwd]; exact hw.2.2.2

theorem WF_setObj (w : World) (hw : WF w) (p : List Str) (o : Obj) (hp : p ≠ [])
    (hv : ∀ n ∈ p, validName n) (hpar : lookup w p.dropLast = some .dir)
    (hnd : lookup w p ≠ some .dir) : WF (setObj w p o) := by
  have hdl : p.dropLast ≠ p := by
    intro e
    have := congrArg List.length e
    simp only [List.length_dropLast] at this
    have : p.length ≠ 0 := by simpa using hp
    omega
  refine ⟨?_, ?_, ?_, hw.2.2.2⟩
  · simp only [setObj, List.map_cons, List.nodup_cons]
    constructor
    · intro hm
      simp only [List.mem_map, List.mem_filter] at hm
      obtain ⟨e, ⟨_, he⟩, hep⟩ := hm
      simp [hep] at he
    · exact List.Nodup.sublist (List.Sublist.map _ (List.filter_sublist _)) hw.1
  · intro e he
    simp only [setObj, List.mem_cons, List.mem_filter] at he
    rcases he with rfl | ⟨he, _⟩
    · exact ⟨hp, hv⟩
    · exact hw.2.1 e he
  · intro e he
    simp only [setObj, List.mem_cons, List.mem_filter] at he
    rw [isDirAt_iff]
    rcases he with rfl | ⟨he, _⟩
    · show lookup (setObj w p o) p.dropLast = some .dir
      rw [lookup_setObj_ne _ _ _ _ hdl]; exact hpar
    · have hd := (isDirAt_iff _ _).1 (hw.2.2.1 e he)
      have hne : e.1.dropLast ≠ p := by
        intro e1
        rw [e1] at hd
        exact hnd hd
      rw [lookup_setObj_ne _ _ _ _ hne]; exact hd

/-- Where a resolved path can lie: on an object, or as a new valid name in a
directory. -/
theorem walkPath_reach {w : World} (hw : WF w) (c : Str) (cs : List Str) {cur t : List Str}
    (hcs : ∀ x ∈ c :: cs, '/' ∉ x) (h : walkPath w cur (c :: cs) = .ok t) :
    (∃ o, lookup w t = some o) ∨
      (t ≠ [] ∧ (∀ n ∈ t, validName n) ∧ lookup w t.dropLast = some .dir) := by
  induction cs generalizing c cur with
  | nil =>
    have ⟨h1, h2⟩ := walkPath_cons_ok h
    simp only [walkPath, Except.ok.injEq] at h2
    subst h2
    by_cases hc1 : c = [] ∨ c = ['.']
    · simp only [hc1, if_true]; exact Or.inl ⟨_, h1⟩
    · by_cases hc2 : c = ['.', '.']
      · simp only [hc1, if_false, hc2, if_true]
        exact Or.inl ⟨_, hw.dropLast_dir h1⟩
      · simp only [hc1, if_false, hc2]
        right
        refine ⟨by simp, ?_, by simpa using h1⟩
        intro n hn
        simp only [List.mem_append, List.mem_singleton] at hn
        rcases hn with hn | rfl
        · exact hw.valid h1 n hn
        · simp only [not_or] at hc1
          exact ⟨hc1.1, hc1.2, hc2, hcs _ (by simp)⟩
  | cons d ds ih =>
    have ⟨_, h2⟩ := walkPath_cons_ok h
    exact ih d (fun x hx => hcs x (by simp [List.mem_cons] at hx ⊢; tauto)) h2

theorem create_ok {w w' : World} {s : Str} {t : List Str} (h : create w s = .ok (w', t)) :
    resolve w s = .ok t ∧ w' = setObj w t (.file (.raw [])) ∧ lookup w t ≠ some .dir := by
  unfold create at h
  cases hr : resolve w s with
  | error e => simp [hr] at h
  | ok p =>
    simp only [hr] at h
    cases hl : lookup w p with
    | none =>
      simp only [hl, Except.ok.injEq, Prod.mk.injEq] at h
      obtain ⟨h1, h2⟩ := h
      subst h2
      exact ⟨rfl, h1.symm, by simp [hl]⟩
    | some o =>
      cases o with
      | dir => simp [hl] at h
      | file d =>
        simp only [hl, Except.ok.injEq, Prod.mk.injEq] at h
        obtain ⟨h1, h2⟩ := h
        subst h2
        exact ⟨rfl, h1.symm, by simp [hl]⟩

theorem resolve_reach {w : World} (hw : WF w) {s : Str} {t : List Str}
    (h : resolve w s = .ok t) :
    (∃ o, lookup w t = some o) ∨
      (t ≠ [] ∧ (∀ n ∈ t, validName n) ∧ lookup w t.dropLast = some .dir) := by
  have hs := resolve_ok_ne_nil h
  unfold resolve at h
  simp only [hs, if_false] at h
  cases hsp : splitSlash s with
  | nil => exact absurd hsp (splitSlash_ne_nil s)
  | cons c cs =>
    rw [hsp] at h
    exact walkPath_reach hw c cs (by rw [← hsp]; exact splitSlash_pieces s) h

theorem WF_create {w w' : World} (hw : WF w) {s : Str} {t : List Str}
    (h : create w s = .ok (w', t)) :
    WF w' ∧ t ≠ [] ∧ lookup w' t = some (.file (.raw [])) ∧ w'.cwd = w.cwd ∧
      (∀ q, q ≠ t → lookup w' q = lookup w q) := by
  obtain ⟨hr, hw', hnd⟩ := create_ok h
  have ht0 : t ≠ [] := by
    intro e
    rw [e] at hnd
    exact hnd (lookup_root w)
  subst hw'
  refine ⟨?_, ht0, lookup_setObj_self _ _ _ ht0, rfl, fun q hq => lookup_setObj_ne _ _ _ _ hq⟩
  rcases resolve_reach hw hr with ⟨o, ho⟩ | ⟨_, hv, hpar⟩
  · exact WF_setObj w hw t _ ht0 (hw.valid ho) (hw.dropLast_dir ho) hnd
  · exact WF_setObj w hw t _ ht0 hv hpar hnd

/-! ## The top-level call of the walk -/

theorem walk_self (fuel : Nat) (w : World) (s dst : Str) : walk fuel w s s dst = [] := by
  cases fuel with
  | zero => rfl
  | succ n => simp [walk]

theorem addFiles_top (w : World) (hw : WF w) (z : List Written) (src self dst : Str)
    (h : (addFiles (treeDepth w + 1) w z src self dst).2 = none) :
    addFiles (treeDepth w + 1) w z src self dst =
        (z ++ walk (treeDepth w + 1) w src self dst, none) ∧
      (src = self ∨ ∃ p o, resolve w src = .ok p ∧ lookup w p = some o) := by
  by_cases hs : src = self
  · subst hs
    refine ⟨?_, Or.inl rfl⟩
    rw [walk_self]
    simp [addFiles]
  · cases hst : stat w src with
    | error e =>
      unfold addFiles at h
      simp [hs, hst] at h
    | ok o =>
      obtain ⟨p, hr, hl⟩ := stat_ok hst
      exact ⟨addFiles_eq_walk _ w hw z src self dst p o hr hl (by omega), Or.inr ⟨p, o, hr, hl⟩⟩

/-- On a well-formed state the bound that `ZipDir` and `ZipFile` pass to
`addFiles` is never exhausted: the only errors are those of the file system. -/
theorem addFiles_depth_suffices (w : World) (hw : WF w) (z : List Written) (src self dst : Str) :
    (addFiles (treeDepth w + 1) w z src self dst).2 ≠ some .depth := by
  by_cases hs : src = self
  · subst hs; simp [addFiles]
  · cases hst : stat w src with
    | error e =>
      unfold addFiles
      simp [hs, hst]
    | ok o =>
      obtain ⟨p, hr, hl⟩ := stat_ok hst
      rw [addFiles_eq_walk _ w hw z src self dst p o hr hl (by omega)]
      simp

/-! ## Successful builds -/

theorem ZipDir_unfold (w : World) (src dst : Str) (ov cr : Bool)
    (h : (ZipDir w src dst ov cr).err = none) :
    ov = true ∧ stat w (absPath w src) = .ok .dir ∧
      ∃ w2 f, create (removeAll w (absPath w dst)) (absPath w dst) = .ok (w2, f) ∧
        ZipDir w src dst ov cr =
          ⟨setObj w2 f (.file (.zip ((addFiles (treeDepth w2 + 1) w2 [] (absPath w src)
              (absPath w dst) (if cr then basePath (absPath w src) else [])).1.map
              Written.toEntry))),
            (addFiles (treeDepth w2 + 1) w2 [] (absPath w src) (absPath w dst)
              (if cr then basePath (absPath w src) else [])).1,
            (addFiles (treeDepth w2 + 1) w2 [] (absPath w src) (absPath w dst)
              (if cr then basePath (absPath w src) else [])).2⟩ := by
  generalize hR : ZipDir w src dst ov cr = R at h
  unfold ZipDir at hR
  simp only at hR
  cases hst : stat w (absPath w src) with
  | error e =>
    rw [hst] at hR
    simp only at hR
    split at hR <;> (subst hR; simp at h)
  | ok i =>
    rw [hst] at hR
    simp only at hR
    cases i with
    | file d =>
      simp only [Obj.isDir, Bool.not_false, if_true] at hR
      subst hR; simp at h
    | dir =>
      simp only [Obj.isDir, Bool.not_true, Bool.false_eq_true, if_false] at hR
      cases ov with
      | false =>
        simp only [Bool.false_eq_true, if_false] at hR
        split at hR <;> (subst hR; simp at h)
      | true =>
        simp only [if_true] at hR
        refine ⟨rfl, rfl, ?_⟩
        cases hc : create (removeAll w (absPath w dst)) (absPath w dst) with
        | error e =>
          rw [hc] at hR
          simp only at hR
          split at hR <;> (subst hR; simp at h)
        | ok r =>
          obtain ⟨w2, f⟩ := r
          rw [hc] at hR
          simp only at hR
          refine ⟨w2, f, rfl, ?_⟩
          split at hR
          · subst hR; simp at h
          · subst hR; simp at h
          · exact hR.symm


theorem ZipDir_ok (w : World) (hw : WF w) (src dst : Str) (ov cr : Bool)
    (h : (ZipDir w src dst ov cr).err = none) :
    ∃ w2, WF w2 ∧ w2.cwd = w.cwd ∧ canonical w dst ≠ [] ∧
      lookup w2 (canonical w dst) = some (.file (.raw [])) ∧
      resolve w2 (absPath w dst) = .ok (canonical w dst) ∧
      (ZipDir w src dst ov cr).written =
        walk (treeDepth w2 + 1) w2 (absPath w src) (absPath w dst)
          (if cr then basePath (absPath w src) else []) ∧
      (ZipDir w src dst ov cr).world =
        setObj w2 (canonical w dst)
          (.file (.zip ((ZipDir w src dst ov cr).written.map Written.toEntry))) ∧
      (absPath w src = absPath w dst ∨
        ∃ o, resolve w2 (absPath w src) = .ok (canonical w src) ∧
          lookup w2 (canonical w src) = some o) := by
  obtain ⟨_, _, w2, f, hc, heq⟩ := ZipDir_unfold w src dst ov cr h
  have hw1 := WF_removeAll w hw (absPath w dst)
  obtain ⟨hw2, hf0, hlf, hcwd, hframe⟩ := WF_create hw1 hc
  obtain ⟨hrf, hset, hnd⟩ := create_ok hc
  have hf : f = canonical w dst := resolve_absPath hrf
  subst hf
  have herr : (addFiles (treeDepth w2 + 1) w2 [] (absPath w src) (absPath w dst)
      (if cr then basePath (absPath w src) else [])).2 = none := by
    rw [heq] at h; exact h
  obtain ⟨hadd, hsrc⟩ := addFiles_top w2 hw2 [] _ _ _ herr
  have hwr : (ZipDir w src dst ov cr).written =
      walk (treeDepth w2 + 1) w2 (absPath w src) (absPath w dst)
        (if cr then basePath (absPath w src) else []) := by
    rw [heq]; simp only; rw [hadd]; simp
  refine ⟨w2, hw2, by rw [hcwd, removeAll_cwd], hf0, hlf, ?_, hwr, ?_, ?_⟩
  · refine resolve_mono hcwd ?_ hrf
    intro q hq
    rw [hframe q]
    · exact hq
    · intro e; rw [e] at hq; exact hnd hq
  · rw [heq]
  · rcases hsrc with hs | ⟨p, o, hr, hl⟩
    · exact Or.inl hs
    · have hp : p = canonical w src := resolve_absPath hr
      subst hp
      exact Or.inr ⟨o, hr, hl⟩

/-- The entries of a walk from a clean path below the root, when the archive is
a file: one for every file below the source other than the archive. -/
theorem mem_walk_clean (w : World) (hw : WF w) (ps pa : List Str)
    (hpa : ∀ n ∈ pa, validName n) (hps0 : ps ≠ []) (dA : Data) (o : Obj)
    (hA : lookup w pa = some (.file dA))
    (hr : resolve w (render ps) = .ok ps) (hl : lookup w ps = some o) (dst : Str)
    (e : Written) :
    e ∈ walk (treeDepth w + 1) w (render ps) (render pa) dst ↔
      ∃ rel body, lookup w (ps ++ rel) = some (.file body) ∧ ps ++ rel ≠ pa ∧
        e = ⟨render ps ++ suffix rel, joinName dst rel, body⟩ := by
  rw [mem_walk _ w hw _ _ _ ps o hr hl (by omega)]
  have hps : ∀ n ∈ ps, validName n := hw.valid hl
  constructor
  · rintro ⟨rel, body, h1, h2, h3⟩
    refine ⟨rel, body, h1, ?_, h3⟩
    have hv : ∀ n ∈ rel, validName n := fun n hn => hw.valid h1 n (by simp [hn])
    exact (notSkipped_render ps pa rel hps hpa hv hps0).1 h2 rel (List.prefix_refl _)
  · rintro ⟨rel, body, h1, h2, h3⟩
    refine ⟨rel, body, h1, ?_, h3⟩
    have hv : ∀ n ∈ rel, validName n := fun n hn => hw.valid h1 n (by simp [hn])
    rw [notSkipped_render ps pa rel hps hpa hv hps0]
    rintro r ⟨r', rfl⟩ e1
    rw [← List.append_assoc, e1] at h1
    have := hw.file_leaf pa r' hA h1
    subst this
    apply h2
    rw [← e1]; simp

/-! ## Entries of a build -/

theorem basePath_ne_nil (p : Str) : basePath p ≠ [] := Base_ne_nil p

theorem joinName_formula (base : Str) (hb : base ≠ []) (cr : Bool) (rel : List Str)
    (hv : ∀ n ∈ rel, validName n) :
    joinName (if cr then base else []) rel =
      if cr then base ++ suffix rel else (suffix rel).drop 1 := by
  cases cr with
  | true => simp only [if_true]; exact joinName_of_ne_nil base rel hb
  | false =>
    simp only [Bool.false_eq_true, if_false]
    cases rel with
    | nil => simp [joinName, suffix]
    | cons n rel =>
      rw [joinName_nil_cons n rel (hv n (by simp)).1, suffix_cons]
      simp

theorem walk_names_nodup (w : World) (hw : WF w) (src self dst : Str) :
    ((walk (treeDepth w + 1) w src self dst).map (fun e => e.name)).Nodup := by
  by_cases hs : src = self
  · subst hs; rw [walk_self]; exact List.nodup_nil
  · cases hst : stat w src with
    | error e => simp [walk, hs, hst]
    | ok o =>
      obtain ⟨p, hr, hl⟩ := stat_ok hst
      have := walk_names_pairwise (treeDepth w + 1) w hw src self dst p o hr hl (by omega)
      unfold List.Nodup
      rw [List.pairwise_map]
      exact this

/-- For a source below the root, a successful `ZipDir` stores an archive with
exactly one entry for every regular file below the source other than the
archive, named by the prefix and the relative path. -/
theorem ZipDir_entries_below_root (w : World) (hw : WF w) (src dst : Str) (cr : Bool)
    (h : (ZipDir w src dst true cr).err = none) (hroot : canonical w src ≠ []) :
    lookup (ZipDir w src dst true cr).world (canonical w dst) =
        some (.file (.zip ((ZipDir w src dst true cr).written.map Written.toEntry))) ∧
      ((ZipDir w src dst true cr).written.map (fun e => e.name)).Nodup ∧
      ∀ name body, (∃ e ∈ (ZipDir w src dst true cr).written, e.name = name ∧ e.body = body) ↔
        ∃ rel, lookup (ZipDir w src dst true cr).world (canonical w src ++ rel)
            = some (.file body) ∧
          canonical w src ++ rel ≠ canonical w dst ∧
          name = if cr then basePath (absPath w src) ++ suffix rel else (suffix rel).drop 1 := by
  obtain ⟨w2, hw2, _, hA0, hA, _, hwr, hwd, hsrc⟩ := ZipDir_ok w hw src dst true cr h
  refine ⟨?_, ?_, ?_⟩
  · rw [hwd]; exact lookup_setObj_self _ _ _ hA0
  · rw [hwr]; exact walk_names_nodup w2 hw2 _ _ _
  · intro name body
    have hlk : ∀ rel, canonical w src ++ rel ≠ canonical w dst →
        lookup (ZipDir w src dst true cr).world (canonical w src ++ rel) =
          lookup w2 (canonical w src ++ rel) := by
      intro rel hne
      rw [hwd]; exact lookup_setObj_ne _ _ _ _ hne
    rcases hsrc with hs | ⟨o, hr, hl⟩
    · rw [hwr, hs, walk_self]
      simp only [List.not_mem_nil, false_and, exists_false, false_iff]
      rintro ⟨rel, h1, h2, _⟩
      rw [hlk rel h2] at h1
      have hc : canonical w src = canonical w dst := by
        rw [absPath_eq, absPath_eq] at hs
        exact render_injective _ _ (canonical_valid w src) (canonical_valid w dst) hs
      rw [hc] at h1 h2
      have := hw2.file_leaf _ rel hA h1
      subst this
      simp at h2
    · rw [hwr]
      rw [absPath_eq w src] at hr
      constructor
      · rintro ⟨e, he, hn, hb⟩
        rw [absPath_eq w src, absPath_eq w dst] at he
        obtain ⟨rel, body', h1, h2, h3⟩ :=
          (mem_walk_clean w2 hw2 _ _ (canonical_valid w dst) hroot _ o hA hr hl _ e).1 he
        have hv : ∀ n ∈ rel, validName n := fun n hn => hw2.valid h1 n (by simp [hn])
        have hbody : body' = body := by rw [← hb, h3]
        subst hbody
        refine ⟨rel, by rw [hlk rel h2]; exact h1, h2, ?_⟩
        rw [← hn, h3, ← absPath_eq]
        exact joinName_formula _ (basePath_ne_nil _) cr rel hv
      · rintro ⟨rel, h1, h2, h3⟩
        rw [hlk rel h2] at h1
        have hv : ∀ n ∈ rel, validName n := fun n hn => hw2.valid h1 n (by simp [hn])
        refine ⟨⟨render (canonical w src) ++ suffix rel,
          joinName (if cr then basePath (absPath w src) else []) rel, body⟩, ?_, ?_, rfl⟩
        · rw [absPath_eq w src, absPath_eq w dst]
          exact (mem_walk_clean w2 hw2 _ _ (canonical_valid w dst) hroot _ o hA hr hl _ _).2
            ⟨rel, body, h1, h2, by rw [← absPath_eq]⟩
        · rw [h3]
          exact joinName_formula _ (basePath_ne_nil _) cr rel hv

/-! ## Builds from a list of sources -/

theorem eachItem_none (f : List Written → Str → List Written × Option Err)
    (g : Str → List Written) (items : List Str) (z : List Written)
    (h : (eachItem f z items).2 = none)
    (hg : ∀ z n, n ∈ items → (f z n).2 = none → f z n = (z ++ g n, none)) :
    eachItem f z items = (z ++ items.flatMap g, none) ∧
      ∀ n ∈ items, ∃ z', (f z' n).2 = none := by
  induction items generalizing z with
  | nil => simp [eachItem]
  | cons n ns ih =>
    unfold eachItem at h ⊢
    cases hf : f z n with
    | mk z1 e =>
      cases e with
      | some e => rw [hf] at h; simp at h
      | none =>
        have h1 := hg z n (by simp) (by rw [hf])
        rw [hf] at h1 h
        simp only [Prod.mk.injEq, and_true] at h1
        subst h1
        simp only at h ⊢
        obtain ⟨h2, h3⟩ := ih _ h (fun z m hm => hg z m (by simp [hm]))
        refine ⟨by rw [h2]; simp [List.flatMap_cons], ?_⟩
        intro m hm
        simp only [List.mem_cons] at hm
        rcases hm with rfl | hm
        · exact ⟨z, by rw [hf]⟩
        · exact h3 m hm

theorem ZipFile_unfold (w : World) (srcs : List Str) (dst : Str)
    (h : (ZipFile w srcs dst).err = none) :
    ∃ w1 f, create w (absPath w dst) = .ok (w1, f) ∧
      ZipFile w srcs dst =
        ⟨setObj w1 f (.file (.zip ((eachItem (fun z s =>
            addFiles (treeDepth w1 + 1) w1 z s (absPath w dst) (basePath s)) []
              (srcs.map (absPath w))).1.map Written.toEntry))),
          (eachItem (fun z s =>
            addFiles (treeDepth w1 + 1) w1 z s (absPath w dst) (basePath s)) []
              (srcs.map (absPath w))).1,
          (eachItem (fun z s =>
            addFiles (treeDepth w1 + 1) w1 z s (absPath w dst) (basePath s)) []
              (srcs.map (absPath w))).2⟩ := by
  generalize hR : ZipFile w srcs dst = R at h
  unfold ZipFile at hR
  simp only at hR
  cases hc : create w (absPath w dst) with
  | error e =>
    rw [hc] at hR
    simp only at hR
    subst hR; simp at h
  | ok r =>
    obtain ⟨w1, f⟩ := r
    rw [hc] at hR
    simp only at hR
    exact ⟨w1, f, rfl, hR.symm⟩

theorem ZipFile_ok (w : World) (hw : WF w) (srcs : List Str) (dst : Str)
    (h : (ZipFile w srcs dst).err = none) :
    ∃ w1, WF w1 ∧ canonical w dst ≠ [] ∧
      lookup w1 (canonical w dst) = some (.file (.raw [])) ∧
      (ZipFile w srcs dst).written =
        (srcs.map (absPath w)).flatMap (fun s =>
          walk (treeDepth w1 + 1) w1 s (absPath w dst) (basePath s)) ∧
      (ZipFile w srcs dst).world =
        setObj w1 (canonical w dst)
          (.file (.zip ((ZipFile w srcs dst).written.map Written.toEntry))) ∧
      ∀ s ∈ srcs, absPath w s = absPath w dst ∨
        ∃ o, resolve w1 (absPath w s) = .ok (canonical w s) ∧
          lookup w1 (canonical w s) = some o := by
  obtain ⟨w1, f, hc, heq⟩ := ZipFile_unfold w srcs dst h
  obtain ⟨hw1, hf0, hlf, _, _⟩ := WF_create hw hc
  obtain ⟨hrf, _, _⟩ := create_ok hc
  have hf : f = canonical w dst := resolve_absPath hrf
  subst hf
  have herr : (eachItem (fun z s =>
      addFiles (treeDepth w1 + 1) w1 z s (absPath w dst) (basePath s)) []
        (srcs.map (absPath w))).2 = none := by
    rw [heq] at h; exact h
  obtain ⟨hrun, heach⟩ := eachItem_none _
    (fun s => walk (treeDepth w1 + 1) w1 s (absPath w dst) (basePath s)) _ [] herr
    (fun z n _ hn => (addFiles_top w1 hw1 z n _ _ hn).1)
  have hwr : (ZipFile w srcs dst).written =
      (srcs.map (absPath w)).flatMap (fun s =>
        walk (treeDepth w1 + 1) w1 s (absPath w dst) (basePath s)) := by
    rw [heq]; simp only; rw [hrun]; simp
  refine ⟨w1, hw1, hf0, hlf, hwr, by rw [heq], ?_⟩
  intro s hs
  obtain ⟨z', hz'⟩ := heach (absPath w s) (List.mem_map_of_mem _ hs)
  rcases (addFiles_top w1 hw1 z' _ _ _ hz').2 with h1 | ⟨p, o, hr, hl⟩
  · exact Or.inl h1
  · have hp : p = canonical w s := resolve_absPath hr
    subst hp
    exact Or.inr ⟨o, hr, hl⟩

theorem base_head_injective (b b' : Str) (rel rel' : List Str)
    (hb : b ≠ []) (hb' : b' ≠ []) (hs : '/' ∉ b ∨ b = ['/']) (hs' : '/' ∉ b' ∨ b' = ['/'])
    (hr : ∀ n ∈ rel, '/' ∉ n) (hr' : ∀ n ∈ rel', '/' ∉ n)
    (h : b ++ suffix rel = b' ++ suffix rel') : b = b' := by
  have h1 := splitSlash_append_suffix b rel hr
  have h2 := splitSlash_append_suffix b' rel' hr'
  rw [h, h2] at h1
  rcases hs with hs | hs <;> rcases hs' with hs' | hs'
  · rw [splitSlash_noSlash b hs, splitSlash_noSlash b' hs'] at h1
    simp only [List.singleton_append, List.cons.injEq] at h1
    exact h1.1.symm
  · rw [splitSlash_noSlash b hs, hs'] at h1
    simp [splitSlash, pushChar] at h1
    exact absurd h1.1 hb
  · rw [splitSlash_noSlash b' hs', hs] at h1
    simp [splitSlash, pushChar] at h1
    exact absurd h1.1 hb'
  · rw [hs, hs']

theorem walk_entry_shape (w : World) (hw : WF w) (src self dst : Str) (e : Written)
    (he : e ∈ walk (treeDepth w + 1) w src self dst) (hd : dst ≠ []) :
    ∃ rel, (∀ n ∈ rel, validName n) ∧ e.src = src ++ suffix rel ∧ e.name = dst ++ suffix rel := by
  by_cases hs : src = self
  · subst hs; rw [walk_self] at he; simp at he
  · cases hst : stat w src with
    | error x => simp [walk, hs, hst] at he
    | ok o =>
      obtain ⟨p, hr, hl⟩ := stat_ok hst
      obtain ⟨rel, body, h1, _, h3⟩ := (mem_walk _ w hw src self dst p o hr hl (by omega) e).1 he
      refine ⟨rel, fun n hn => hw.valid h1 n (by simp [hn]), by rw [h3], ?_⟩
      rw [h3]
      exact joinName_of_ne_nil dst rel hd

/-- C8 (amended): within one successful build, two entries with the same name
come from the same source path, for `ZipDir` on any directory, and for
`ZipFile` on sources whose base names are pairwise distinct. -/
theorem entry_names_injective (w : World) (hw : WF w) :
    (∀ src dst ov cr, (ZipDir w src dst ov cr).err = none →
      ∀ a ∈ (ZipDir w src dst ov cr).written, ∀ b ∈ (ZipDir w src dst ov cr).written,
        a.name = b.name → a.src = b.src) ∧
    (∀ srcs dst, (ZipFile w srcs dst).err = none →
      (srcs.map (fun s => basePath (absPath w s))).Nodup →
      ∀ a ∈ (ZipFile w srcs dst).written, ∀ b ∈ (ZipFile w srcs dst).written,
        a.name = b.name → a.src = b.src) := by
  constructor
  · intro src dst ov cr h a ha b hb hab
    obtain ⟨w2, hw2, _, _, _, _, hwr, _, _⟩ := ZipDir_ok w hw src dst ov cr h
    rw [hwr] at ha hb
    have := List.inj_on_of_nodup_map (walk_names_nodup w2 hw2 _ _ _) ha hb hab
    rw [this]
  · intro srcs dst h hnd a ha b hb hab
    obtain ⟨w1, hw1, _, _, hwr, _, _⟩ := ZipFile_ok w hw srcs dst h
    rw [hwr] at ha hb
    simp only [List.mem_flatMap, List.mem_map] at ha hb
    obtain ⟨_, ⟨s, hs, rfl⟩, ha⟩ := ha
    obtain ⟨_, ⟨t, ht, rfl⟩, hb⟩ := hb
    obtain ⟨r1, hv1, hs1, hn1⟩ := walk_entry_shape w1 hw1 _ _ _ a ha (basePath_ne_nil _)
    obtain ⟨r2, hv2, hs2, hn2⟩ := walk_entry_shape w1 hw1 _ _ _ b hb (basePath_ne_nil _)
    rw [hn1, hn2] at hab
    have hbase := base_head_injective _ _ r1 r2 (basePath_ne_nil _) (basePath_ne_nil _)
      (Base_shape _) (Base_shape _) (fun n hn => validName_noSlash (hv1 n hn))
      (fun n hn => validName_noSlash (hv2 n hn)) hab
    have hst : s = t := List.inj_on_of_nodup_map hnd hs ht hbase
    subst hst
    have := List.inj_on_of_nodup_map (walk_names_nodup w1 hw1 _ _ _) ha hb
      (by rw [hn1, hn2]; exact hab)
    rw [this]

/-! ## Directory creation -/

theorem names_cons_skip (c : Str) (cs : List Str) (h : c = [] ∨ c = ['.']) :
    names (c :: cs) = names cs := by
  unfold names
  have : ¬ (c ≠ [] ∧ c ≠ ['.']) := by
    rcases h with h | h <;> simp [h]
  simp [List.filter_cons, this]

theorem names_cons_name (c : Str) (cs : List Str) (h : ¬ (c = [] ∨ c = ['.'])) :
    names (c :: cs) = c :: names cs := by
  unfold names
  have : c ≠ [] ∧ c ≠ ['.'] := by
    simp only [not_or] at h; exact h
  simp [List.filter_cons, this]

/-- Directory creation changes nothing that exists, and what it creates are
directories on the way to the path it is given. -/
theorem mkdirFrom_frame (w : World) (cur cs : List Str) (hd : ['.', '.'] ∉ cs) (q : List Str) :
    lookup (mkdirFrom w cur cs).1 q = lookup w q ∨
      (lookup w q = none ∧ lookup (mkdirFrom w cur cs).1 q = some .dir ∧
        q <+: cur ++ names cs) := by
  induction cs generalizing w cur with
  | nil => left; rfl
  | cons c cs ih =>
    have hc : c ≠ ['.', '.'] := fun e => hd (by simp [e])
    have hcs : ['.', '.'] ∉ cs := fun e => hd (by simp [e])
    unfold mkdirFrom
    by_cases h1 : c = [] ∨ c = ['.']
    · simp only [h1, if_true]
      rw [names_cons_skip c cs h1]
      exact ih w cur hcs
    · simp only [h1, if_false, hc]
      rw [names_cons_name c cs h1]
      have happ : cur ++ c :: names cs = (cur ++ [c]) ++ names cs := by simp
      rw [happ]
      cases hl : lookup w (cur ++ [c]) with
      | none =>
        simp only
        have hne : cur ++ [c] ≠ [] := by simp
        rcases ih (setObj w (cur ++ [c]) .dir) (cur ++ [c]) hcs with h | ⟨h2, h3, h4⟩
        · by_cases hq : q = cur ++ [c]
          · right
            subst hq
            refine ⟨hl, ?_, List.prefix_append _ _⟩
            rw [h]; exact lookup_setObj_self _ _ _ hne
          · left
            rw [h]; exact lookup_setObj_ne _ _ _ _ hq
        · by_cases hq : q = cur ++ [c]
          · subst hq
            rw [lookup_setObj_self _ _ _ hne] at h2
            simp at h2
          · right
            rw [lookup_setObj_ne _ _ _ _ hq] at h2
            exact ⟨h2, h3, h4⟩
      | some o =>
        cases o with
        | dir => simp only; exact ih w (cur ++ [c]) hcs
        | file d => simp only; left; trivial

/-- Directory creation keeps every object that exists. -/
theorem mkdirFrom_keeps (w : World) (cur cs : List Str) (q : List Str) (o : Obj)
    (h : lookup w q = some o) : lookup (mkdirFrom w cur cs).1 q = some o := by
  induction cs generalizing w cur with
  | nil => exact h
  | cons c cs ih =>
    unfold mkdirFrom
    split
    · exact ih w cur h
    · split
      · exact ih w _ h
      · split
        · exact ih w _ h
        · exact h
        · rename_i hl
          apply ih
          have hq : q ≠ cur ++ [c] := by
            intro e; rw [e, hl] at h; simp at h
          rw [lookup_setObj_ne _ _ _ _ hq]; exact h

theorem mkdirAll_keeps (w : World) (s : Str) (q : List Str) (o : Obj)
    (h : lookup w q = some o) : lookup (mkdirAll w s).1 q = some o := by
  unfold mkdirAll
  split
  · exact h
  · exact mkdirFrom_keeps w _ _ q o h

theorem mkdirAll_frame (w : World) (s : Str) (hr : s.head? = some '/')
    (hd : ['.', '.'] ∉ splitSlash s) (q : List Str) :
    lookup (mkdirAll w s).1 q = lookup w q ∨
      (lookup w q = none ∧ lookup (mkdirAll w s).1 q = some .dir ∧
        q <+: names (splitSlash s)) := by
  unfold mkdirAll
  split
  · left; rfl
  · simpa using mkdirFrom_frame w [] (splitSlash s) hd q

theorem mkdirFrom_cwd (w : World) (cur cs : List Str) : (mkdirFrom w cur cs).1.cwd = w.cwd := by
  induction cs generalizing w cur with
  | nil => rfl
  | cons c cs ih =>
    unfold mkdirFrom
    split
    · exact ih w cur
    · split
      · exact ih w _
      · split
        · exact ih w _
        · rfl
        · rw [ih]; rfl

theorem mkdirAll_cwd (w : World) (s : Str) : (mkdirAll w s).1.cwd = w.cwd := by
  unfold mkdirAll
  split
  · rfl
  · exact mkdirFrom_cwd w _ _

/-! ## Extraction stays below the destination root -/

theorem splitSlash_file (R : List Str) (hR : ∀ n ∈ R, validName n) (name : Str)
    (hn : ['.', '.'] ∉ splitSlash name) :
    (render R ++ '/' :: name).head? = some '/' ∧
      ['.', '.'] ∉ splitSlash (render R ++ '/' :: name) ∧
      names (splitSlash (render R ++ '/' :: name)) = R ++ names (splitSlash name) := by
  refine ⟨?_, ?_, ?_⟩
  · rw [head?_append_of_ne_nil _ _ (render_ne_nil R)]; exact render_head R
  · rw [splitSlash_append_slash]
    intro h
    rcases List.mem_append.1 h with h | h
    · exact dotdot_not_mem_splitSlash_render R hR h
    · exact hn h
  · rw [splitSlash_append_slash, names_append, names_splitSlash_render R hR]

theorem dirPath_file (R : List Str) (hR : ∀ n ∈ R, validName n) (name : Str)
    (hn : ['.', '.'] ∉ splitSlash name) :
    ∃ D, dirPath (render R ++ '/' :: name) = render D ∧ (∀ n ∈ D, validName n) ∧ R <+: D := by
  have hsplit : (splitSlash (render R ++ '/' :: name)).dropLast =
      splitSlash (render R) ++ (splitSlash name).dropLast := by
    rw [splitSlash_append_slash]
    exact List.dropLast_append_of_ne_nil _ (splitSlash_ne_nil name)
  have hdd : ['.', '.'] ∉ splitSlash (render R) ++ (splitSlash name).dropLast := by
    intro h
    rcases List.mem_append.1 h with h | h
    · exact dotdot_not_mem_splitSlash_render R hR h
    · exact hn (List.mem_of_mem_dropLast h)
  have hpieces : ∀ c ∈ splitSlash (render R) ++ (splitSlash name).dropLast, '/' ∉ c := by
    intro c hc
    rcases List.mem_append.1 hc with hc | hc
    · exact splitSlash_pieces _ c hc
    · exact splitSlash_pieces _ c (List.mem_of_mem_dropLast hc)
  refine ⟨names (splitSlash (render R) ++ (splitSlash name).dropLast), ?_, ?_, ?_⟩
  · unfold dirPath toSlash Dir
    rw [hsplit, foldl_cleanStep_names _ _ hdd]
    simp
  · exact names_valid_all _ hpieces hdd
  · rw [names_append, names_splitSlash_render R hR]
    exact List.prefix_append _ _

/-- One extracted entry changes nothing outside the root, except that missing
directories on the way to the root are created. -/
theorem extractEntry_below (R : List Str) (hR : ∀ n ∈ R, validName n) (arch : List Str)
    (w : World) (f : Str × Bool × Fault × Data) (hf : ['.', '.'] ∉ splitSlash f.1)
    (q : List Str) (hq : ¬ R <+: q) :
    lookup (extractEntry (render R) arch w f).1 q = lookup w q ∨
      (q <+: R ∧ lookup w q = none ∧
        lookup (extractEntry (render R) arch w f).1 q = some .dir) := by
  obtain ⟨hhead, hdd, hnames⟩ := splitSlash_file R hR f.1 hf
  have hmk : ∀ s T, s.head? = some '/' → ['.', '.'] ∉ splitSlash s →
      names (splitSlash s) = T → R <+: T →
      (lookup (mkdirAll w s).1 q = lookup w q ∨
        (q <+: R ∧ lookup w q = none ∧ lookup (mkdirAll w s).1 q = some .dir)) := by
    intro s T h1 h2 h3 h4
    rcases mkdirAll_frame w s h1 h2 q with h | ⟨h5, h6, h7⟩
    · exact Or.inl h
    · right
      rw [h3] at h7
      rcases List.prefix_or_prefix_of_prefix h7 h4 with h8 | h8
      · exact ⟨h8, h5, h6⟩
      · exact absurd h8 hq
  unfold extractEntry
  simp only
  by_cases hdir : entryIsDir f = true
  · simp only [hdir, if_true]
    exact hmk _ _ hhead hdd hnames (List.prefix_append _ _)
  · simp only [hdir, Bool.false_eq_true, if_false]
    obtain ⟨D, hD, hDv, hRD⟩ := dirPath_file R hR f.1 hf
    have h1 := hmk (dirPath (render R ++ '/' :: f.1)) D
      (by rw [hD]; exact render_head D)
      (by rw [hD]; exact dotdot_not_mem_splitSlash_render D hDv)
      (by rw [hD]; exact names_splitSlash_render D hDv) hRD
    by_cases hop : f.2.2.1 = .openFails
    · simp only [hop, if_true]; exact h1
    · simp only [hop, if_false]
      cases hc : create (mkdirAll w (dirPath (render R ++ '/' :: f.1))).1
          (render R ++ '/' :: f.1) with
      | error e => simp only; exact h1
      | ok r =>
        obtain ⟨w2, t⟩ := r
        obtain ⟨hres, hw2, _⟩ := create_ok hc
        have ht : t = R ++ names (splitSlash f.1) := by
          rw [← hnames]; exact resolve_rooted_names hhead hdd hres
        have hqt : q ≠ t := by
          intro e
          apply hq
          rw [e, ht]; exact List.prefix_append _ _
        have h2 : lookup w2 q = lookup (mkdirAll w (dirPath (render R ++ '/' :: f.1))).1 q := by
          rw [hw2]; exact lookup_setObj_ne _ _ _ _ hqt
        simp only
        by_cases hcp : copyBreaks arch f t
        · simp only [hcp, if_true]
          rw [h2]; exact h1
        · simp only [hcp, if_false]
          rw [lookup_setObj_ne _ _ _ _ hqt, h2]; exact h1

theorem unzipLoop_below (R : List Str) (hR : ∀ n ∈ R, validName n) (arch : List Str)
    (es : List (Str × Bool × Fault × Data)) (w : World)
    (hes : ∀ f ∈ es, ['.', '.'] ∉ splitSlash f.1) (q : List Str) (hq : ¬ R <+: q) :
    lookup (unzipLoop (render R) arch w es).1 q = lookup w q ∨
      (q <+: R ∧ lookup w q = none ∧
        lookup (unzipLoop (render R) arch w es).1 q = some .dir) := by
  induction es generalizing w with
  | nil => left; rfl
  | cons f fs ih =>
    have hstep := extractEntry_below R hR arch w f (hes f (by simp)) q hq
    unfold unzipLoop
    cases hx : extractEntry (render R) arch w f with
    | mk w1 e =>
      rw [hx] at hstep
      simp only at hstep
      cases e with
      | some e => simp only; exact hstep
      | none =>
        simp only
        have hrest := ih w1 (fun g hg => hes g (by simp [hg]))
        rcases hstep with h1 | ⟨h1, h2, h3⟩
        · rw [h1] at hrest; exact hrest
        · rcases hrest with h4 | ⟨_, h5, _⟩
          · right; exact ⟨h1, h2, by rw [h4]; exact h3⟩
          · rw [h3] at h5; simp at h5

theorem destRoot_valid (w : World) (hw : WF w) (dst : Str) : ∀ n ∈ destRoot w dst, validName n := by
  unfold destRoot
  split
  · exact hw.2.2.2
  · exact canonical_valid w dst

theorem destRoot_render (w : World) (dst : Str) :
    (if dst.length = 0 then getwd w else absPath w dst) = render (destRoot w dst) := by
  unfold destRoot
  split
  · rfl
  · exact absPath_eq w dst

/-- C10 (amended): when no entry name of the archive has a ".." component,
`Unzip` leaves every path that is not at or below the destination root as it
was, except that missing directories on the way to the root are created. -/
theorem Unzip_stays_below_root (w : World) (hw : WF w) (src dst : Str)
    (es : List (Str × Bool × Fault × Data))
    (harch : readFile w (absPath w src) = .ok (.zip es))
    (hes : ∀ f ∈ es, ['.', '.'] ∉ splitSlash f.1)
    (q : List Str) (hq : ¬ destRoot w dst <+: q) :
    lookup (Unzip w src dst).1 q = lookup w q ∨
      (q <+: destRoot w dst ∧ lookup w q = none ∧ lookup (Unzip w src dst).1 q = some .dir) := by
  unfold Unzip
  simp only [harch]
  rw [destRoot_render]
  exact unzipLoop_below _ (destRoot_valid w hw dst) _ es w hes q hq

/-! ## Extraction stops at the first failure -/

theorem unzipLoop_cons_ok {R : Str} {A : List Str} {w w1 : World}
    {f : Str × Bool × Fault × Data}
    (fs : List (Str × Bool × Fault × Data)) (h : extractEntry R A w f = (w1, none)) :
    unzipLoop R A w (f :: fs) = unzipLoop R A w1 fs := by
  rw [unzipLoop, h]

theorem unzipLoop_cons_err {R : Str} {A : List Str} {w w1 : World}
    {f : Str × Bool × Fault × Data} {e : Err}
    (fs : List (Str × Bool × Fault × Data)) (h : extractEntry R A w f = (w1, some e)) :
    unzipLoop R A w (f :: fs) = (w1, some e) := by
  rw [unzipLoop, h]

theorem extractEntry_file (R : Str) (A : List Str) (w w2 : World)
    (f : Str × Bool × Fault × Data) (h : List Str)
    (hfile : entryIsDir f = false) (hop : f.2.2.1 ≠ .openFails)
    (hc : create (mkdirAll w (dirPath (R ++ '/' :: f.1))).1 (R ++ '/' :: f.1) = .ok (w2, h))
    (hcp : ¬ copyBreaks A f h) :
    extractEntry R A w f = (setObj w2 h (.file f.2.2.2), none) := by
  unfold extractEntry
  simp [hfile, hop, hc, hcp]

theorem extractEntry_fails (R : Str) (A : List Str) (w : World) (f : Str × Bool × Fault × Data)
    (hfile : entryIsDir f = false)
    (hfail : f.2.2.1 = .openFails ∨
      (∃ e, create (mkdirAll w (dirPath (R ++ '/' :: f.1))).1 (R ++ '/' :: f.1) = .error e) ∨
      (∃ w2 h, create (mkdirAll w (dirPath (R ++ '/' :: f.1))).1 (R ++ '/' :: f.1)
        = .ok (w2, h) ∧ copyBreaks A f h)) :
    ∃ e, (extractEntry R A w f).2 = some e := by
  unfold extractEntry
  simp only [hfile, Bool.false_eq_true, if_false]
  by_cases hop : f.2.2.1 = .openFails
  · simp [hop]
  · simp only [hop, if_false]
    cases hc : create (mkdirAll w (dirPath (R ++ '/' :: f.1))).1 (R ++ '/' :: f.1) with
    | error e => simp
    | ok r =>
      obtain ⟨w2, h⟩ := r
      simp only
      rcases hfail with h1 | ⟨e, h1⟩ | ⟨w3, h3, h1, h2⟩
      · exact absurd h1 hop
      · rw [hc] at h1; simp at h1
      · rw [hc] at h1
        simp only [Except.ok.injEq, Prod.mk.injEq] at h1
        obtain ⟨_, rfl⟩ := h1
        simp [h2]

theorem extractEntry_ok (R : Str) (A : List Str) (w : World) (f : Str × Bool × Fault × Data)
    (hfile : entryIsDir f = false) (h : (extractEntry R A w f).2 = none) :
    f.2.2.1 ≠ .openFails ∧
      ∃ w2 t, create (mkdirAll w (dirPath (R ++ '/' :: f.1))).1 (R ++ '/' :: f.1)
        = .ok (w2, t) ∧ ¬ copyBreaks A f t := by
  have h1 : f.2.2.1 ≠ .openFails := by
    intro hx
    obtain ⟨e, he⟩ := extractEntry_fails R A w f hfile (Or.inl hx)
    rw [he] at h; simp at h
  refine ⟨h1, ?_⟩
  cases hc : create (mkdirAll w (dirPath (R ++ '/' :: f.1))).1 (R ++ '/' :: f.1) with
  | ok r =>
    obtain ⟨w2, t⟩ := r
    refine ⟨w2, t, rfl, ?_⟩
    intro hcp
    obtain ⟨e', he⟩ := extractEntry_fails R A w f hfile (Or.inr (Or.inr ⟨w2, t, hc, hcp⟩))
    rw [he] at h; simp at h
  | error e =>
    obtain ⟨e', he⟩ := extractEntry_fails R A w f hfile (Or.inr (Or.inl ⟨e, hc⟩))
    rw [he] at h; simp at h

theorem toEntry_not_dir (e : Written) (hends : endsWithSlash e.name = false) :
    entryIsDir e.toEntry = false := by
  simp [entryIsDir, Written.toEntry, hends]

theorem names_dropLast_under (l : List Str) : names l.dropLast <+: names l := by
  rcases List.eq_nil_or_concat l with h | ⟨m, c, h⟩
  · subst h; simp
  · subst h
    simp only [List.concat_eq_append, List.dropLast_concat]
    rw [names_append]
    exact List.prefix_append _ _

theorem dirPath_file_under (R : List Str) (hR : ∀ n ∈ R, validName n) (name : Str)
    (hn : ['.', '.'] ∉ splitSlash name) :
    ∃ D, dirPath (render R ++ '/' :: name) = render D ∧ (∀ n ∈ D, validName n) ∧
      D <+: R ++ names (splitSlash name) := by
  have hsplit : (splitSlash (render R ++ '/' :: name)).dropLast =
      splitSlash (render R) ++ (splitSlash name).dropLast := by
    rw [splitSlash_append_slash]
    exact List.dropLast_append_of_ne_nil _ (splitSlash_ne_nil name)
  have hdd : ['.', '.'] ∉ splitSlash (render R) ++ (splitSlash name).dropLast := by
    intro h
    rcases List.mem_append.1 h with h | h
    · exact dotdot_not_mem_splitSlash_render R hR h
    · exact hn (List.mem_of_mem_dropLast h)
  have hpieces : ∀ c ∈ splitSlash (render R) ++ (splitSlash name).dropLast, '/' ∉ c := by
    intro c hc
    rcases List.mem_append.1 hc with hc | hc
    · exact splitSlash_pieces _ c hc
    · exact splitSlash_pieces _ c (List.mem_of_mem_dropLast hc)
  refine ⟨names (splitSlash (render R) ++ (splitSlash name).dropLast), ?_, ?_, ?_⟩
  · unfold dirPath toSlash Dir
    rw [hsplit, foldl_cleanStep_names _ _ hdd]
    simp
  · exact names_valid_all _ hpieces hdd
  · rw [names_append, names_splitSlash_render R hR]
    exact (List.prefix_append_right_inj R).2 (names_dropLast_under _)

/-- A written entry that is extracted without error: its content is at its
target, its target is not the archive, and every object of the new state was
there before, or is the extracted file, or is a directory created on the way
to it. -/
theorem extract_written_ok (R : List Str) (hR : ∀ n ∈ R, validName n) (A : List Str)
    (w w' : World)
    (e : Written) (hends : endsWithSlash e.name = false)
    (hdd : ['.', '.'] ∉ splitSlash e.name)
    (h : extractEntry (render R) A w e.toEntry = (w', none)) :
    lookup w' (R ++ names (splitSlash e.name)) = some (.file e.body) ∧
      R ++ names (splitSlash e.name) ≠ A ∧
      (∀ q o, q ≠ R ++ names (splitSlash e.name) → lookup w q = some o →
        lookup w' q = some o) ∧
      (∀ q o, lookup w' q = some o → lookup w q = some o ∨
        (q = R ++ names (splitSlash e.name) ∧ o = .file e.body) ∨
        (o = .dir ∧ q <+: R ++ names (splitSlash e.name) ∧
          q ≠ R ++ names (splitSlash e.name))) := by
  obtain ⟨hhead, hdd', hnames⟩ := splitSlash_file R hR e.name hdd
  have hfile := toEntry_not_dir e hends
  have hx : (extractEntry (render R) A w e.toEntry).2 = none := by rw [h]
  obtain ⟨hop, w2, t, hc, hcp⟩ := extractEntry_ok (render R) A w e.toEntry hfile hx
  rw [extractEntry_file (render R) A w w2 e.toEntry t hfile hop hc hcp] at h
  simp only [Prod.mk.injEq, and_true] at h
  have hc' : create (mkdirAll w (dirPath (render R ++ '/' :: e.name))).1
      (render R ++ '/' :: e.name) = .ok (w2, t) := hc
  obtain ⟨hres, hw2, hnd⟩ := create_ok hc'
  have ht : t = R ++ names (splitSlash e.name) := by
    rw [← hnames]; exact resolve_rooted_names hhead hdd' hres
  have ht0 : t ≠ [] := by
    intro e0
    rw [e0] at hnd
    exact hnd (lookup_root _)
  have hbody : (Written.toEntry e).2.2.2 = e.body := rfl
  rw [hbody] at h
  subst h
  rw [← ht]
  have hframe : ∀ q, q ≠ t → lookup (setObj w2 t (.file e.body)) q =
      lookup (mkdirAll w (dirPath (render R ++ '/' :: e.name))).1 q := by
    intro q hq
    rw [lookup_setObj_ne _ _ _ _ hq, hw2, lookup_setObj_ne _ _ _ _ hq]
  refine ⟨lookup_setObj_self _ _ _ ht0, ?_, ?_, ?_⟩
  · intro e0
    exact hcp (Or.inr e0)
  · intro q o hq hl
    rw [hframe q hq]
    exact mkdirAll_keeps _ _ _ _ hl
  · intro q o hl
    by_cases hq : q = t
    · right; left
      subst hq
      rw [lookup_setObj_self _ _ _ ht0] at hl
      simp only [Option.some.injEq] at hl
      exact ⟨rfl, hl.symm⟩
    · rw [hframe q hq] at hl
      obtain ⟨D, hD, hDv, hDt⟩ := dirPath_file_under R hR e.name hdd
      rw [← ht] at hDt
      rcases mkdirAll_frame w (dirPath (render R ++ '/' :: e.name))
          (by rw [hD]; exact render_head D)
          (by rw [hD]; exact dotdot_not_mem_splitSlash_render D hDv) q with h1 | ⟨h1, h2, h3⟩
      · left; rw [← h1]; exact hl
      · right; right
        rw [hD, names_splitSlash_render D hDv] at h3
        rw [h2] at hl
        simp only [Option.some.injEq] at hl
        exact ⟨hl.symm, h3.trans hDt, hq⟩

/-- No target of a written archive that is extracted without error is the
archive itself. -/
theorem unzip_targets_ne (R : List Str) (hR : ∀ n ∈ R, validName n) (A : List Str)
    (ws : List Written) (w w' : World)
    (hws : ∀ e ∈ ws, endsWithSlash e.name = false ∧ ['.', '.'] ∉ splitSlash e.name)
    (h : unzipLoop (render R) A w (ws.map Written.toEntry) = (w', none)) :
    ∀ e ∈ ws, R ++ names (splitSlash e.name) ≠ A := by
  induction ws generalizing w with
  | nil => simp
  | cons e es ih =>
    rw [List.map_cons] at h
    cases hx : extractEntry (render R) A w e.toEntry with
    | mk w1 x =>
      cases x with
      | some x => rw [unzipLoop_cons_err _ hx] at h; simp at h
      | none =>
        rw [unzipLoop_cons_ok _ hx] at h
        intro g hg
        simp only [List.mem_cons] at hg
        rcases hg with rfl | hg
        · exact (extract_written_ok R hR A w w1 g (hws g (by simp)).1
            (hws g (by simp)).2 hx).2.1
        · exact ih w1 (fun g hg => hws g (by simp [hg])) h g hg

/-! ## Extraction keeps the state well-formed -/

/-- C2 (code defect): for the tree proj/{a.txt, sub/b.txt} the entries are
proj/a.txt and proj/sub/b.txt, but when the source is the root directory the
archive /out.zip gets an entry for itself. -/
theorem ZipDir_root_archives_destination :
    WF projWorld ∧
    archiveNames (ZipDir projWorld "proj".toList "out.zip".toList true true).world
      ["out.zip".toList] = some ["proj/a.txt".toList, "proj/sub/b.txt".toList] ∧
    (ZipDir projWorld "/".toList "/out.zip".toList true false).err = none ∧
    canonical projWorld "/out.zip".toList = ["out.zip".toList] ∧
    archiveNames (ZipDir projWorld "/".toList "/out.zip".toList true false).world
      ["out.zip".toList] =
        some ["out.zip".toList, "proj/a.txt".toList, "proj/sub/b.txt".toList] := by
  decide

/-- C4: with an existing source directory and an existing destination,
`ZipDir` without overwrite returns the "exist" error and the file system is
unchanged. -/
theorem ZipDir_existing_destination_kept (w : World) (src dst : Str) (cr : Bool) (o : Obj)
    (hsrc : stat w (absPath w src) = .ok .dir) (hdst : stat w (absPath w dst) = .ok o) :
    ZipDir w src dst false cr = ⟨w, [], some (.exist dst)⟩ := by
  unfold ZipDir
  simp [hsrc, hdst, Obj.isDir]

/-- Witness of C4: the directory /dest exists and is kept. -/
theorem ZipDir_existing_destination_kept_witness :
    stat projWorld (absPath projWorld "proj".toList) = .ok .dir ∧
    stat projWorld (absPath projWorld "dest".toList) = .ok .dir ∧
    ZipDir projWorld "proj".toList "dest".toList false true
      = ⟨projWorld, [], some (.exist "dest".toList)⟩ :=
  ⟨rfl, rfl,
    ZipDir_existing_destination_kept projWorld "proj".toList "dest".toList true .dir rfl rfl⟩

/-- C5 (code defect): /out.zip does not exist, and `ZipDir` without overwrite
still returns the "exist" error and creates nothing, while with overwrite it
succeeds. -/
theorem ZipDir_without_overwrite_always_fails :
    WF projWorld ∧
    stat projWorld (absPath projWorld "proj".toList) = .ok .dir ∧
    absent projWorld ["out.zip".toList] = true ∧
    (ZipDir projWorld "proj".toList "out.zip".toList false true).err
      = some (.exist "out.zip".toList) ∧
    absent (ZipDir projWorld "proj".toList "out.zip".toList false true).world
      ["out.zip".toList] = true ∧
    (ZipDir projWorld "proj".toList "out.zip".toList true true).err = none :=
  ⟨by decide, rfl, by decide, by decide, by decide, by decide⟩

/-- C6 (as stated, refuted): the source proj/a.txt/x does not exist, and
`ZipDir` returns the error of `os.Stat`, not the "not exist" error; the source
nope/../proj does not resolve either, and `ZipDir` succeeds on its cleaned
form /proj. -/
theorem ZipDir_missing_source_other_outcomes :
    WF projWorld ∧
    absent projWorld ["proj".toList, "a.txt".toList, "x".toList] = true ∧
    stat projWorld "proj/a.txt/x".toList = .error .ENOTDIR ∧
    (ZipDir projWorld "proj/a.txt/x".toList "out.zip".toList true true).err
      = some (.sys .ENOTDIR) ∧
    stat projWorld "nope/../proj".toList = .error .ENOENT ∧
    absPath projWorld "nope/../proj".toList = "/proj".toList ∧
    (ZipDir projWorld "nope/../proj".toList "out.zip".toList true true).err = none ∧
    archiveNames (ZipDir projWorld "nope/../proj".toList "out.zip".toList true true).world
      ["out.zip".toList] = some ["proj/a.txt".toList, "proj/sub/b.txt".toList] :=
  ⟨by decide, by decide, rfl, by decide, rfl, by decide, by decide, by decide⟩

/-- C6 (amended): `ZipDir` examines the source path as `absPath` normalizes
it.  It returns the "not exist" error when `os.Stat` reports that this path
does not exist, the "is not a directory" error when this path is a regular
file, and the error of `os.Stat` unchanged in every other case of failure; in
all three cases the file system is unchanged. -/
theorem ZipDir_source_validation (w : World) (src dst : Str) (ov cr : Bool) :
    (stat w (absPath w src) = .error .ENOENT →
      ZipDir w src dst ov cr = ⟨w, [], some (.notExist src)⟩) ∧
    (∀ d, stat w (absPath w src) = .ok (.file d) →
      ZipDir w src dst ov cr = ⟨w, [], some (.notADirectory src)⟩) ∧
    (∀ e, stat w (absPath w src) = .error e → e ≠ .ENOENT →
      ZipDir w src dst ov cr = ⟨w, [], some (.sys e)⟩) := by
  refine ⟨?_, ?_, ?_⟩
  · intro h
    unfold ZipDir
    simp [h]
  · intro d h
    unfold ZipDir
    simp [h, Obj.isDir]
  · intro e h he
    unfold ZipDir
    simp [h, he]

/-- Witness of C6 (amended): the source /nope does not exist, the source
/proj/a.txt is a regular file, and the source /proj/a.txt/x runs through a
regular file. -/
theorem ZipDir_source_validation_witness :
    stat projWorld (absPath projWorld "nope".toList) = .error .ENOENT ∧
    stat projWorld (absPath projWorld "proj/a.txt".toList) = .ok (.file (.raw [1, 2])) ∧
    stat projWorld (absPath projWorld "proj/a.txt/x".toList) = .error .ENOTDIR ∧
    ZipDir projWorld "nope".toList "dest".toList true true
      = ⟨projWorld, [], some (.notExist "nope".toList)⟩ ∧
    ZipDir projWorld "proj/a.txt".toList "dest".toList true true
      = ⟨projWorld, [], some (.notADirectory "proj/a.txt".toList)⟩ ∧
    ZipDir projWorld "proj/a.txt/x".toList "dest".toList true true
      = ⟨projWorld, [], some (.sys .ENOTDIR)⟩ :=
  ⟨rfl, rfl, rfl,
    (ZipDir_source_validation projWorld "nope".toList "dest".toList true true).1 rfl,
    (ZipDir_source_validation projWorld "proj/a.txt".toList "dest".toList true true).2.1 _ rfl,
    (ZipDir_source_validation projWorld "proj/a.txt/x".toList "dest".toList true true).2.2 _
      rfl (by decide)⟩

/-- C7 (code defect): with the root directory as source, the path that
`addFiles` builds for the destination is "//out.zip", which differs from the
normalized destination "/out.zip", and the destination is written into its
own archive. -/
theorem addFiles_root_misses_self :
    WF projWorld ∧
    absPath projWorld "/".toList = "/".toList ∧
    absPath projWorld "/out.zip".toList = "/out.zip".toList ∧
    (ZipDir projWorld "/".toList "/out.zip".toList true true).err = none ∧
    (ZipDir projWorld "/".toList "/out.zip".toList true true).written.map
        (fun e => (e.src, e.name)) =
      [("//out.zip".toList, "//out.zip".toList),
       ("//proj/a.txt".toList, "//proj/a.txt".toList),
       ("//proj/sub/b.txt".toList, "//proj/sub/b.txt".toList)] := by
  decide

/-- C8 (as stated, refuted): `ZipFile` on the sources /x/a.txt and /y/a.txt
writes two entries named a.txt. -/
theorem ZipFile_same_base_name_collides :
    WF twinWorld ∧
    (ZipFile twinWorld ["/x/a.txt".toList, "/y/a.txt".toList] "/out.zip".toList).err = none ∧
    (ZipFile twinWorld ["/x/a.txt".toList, "/y/a.txt".toList] "/out.zip".toList).written.map
        (fun e => (e.src, e.name)) =
      [("/x/a.txt".toList, "a.txt".toList), ("/y/a.txt".toList, "a.txt".toList)] := by
  decide

/-- Witness of C8 (amended): the builds on the example tree. -/
theorem entry_names_injective_witness :
    WF projWorld ∧
    ((∀ src dst ov cr, (ZipDir projWorld src dst ov cr).err = none →
      ∀ a ∈ (ZipDir projWorld src dst ov cr).written,
        ∀ b ∈ (ZipDir projWorld src dst ov cr).written, a.name = b.name → a.src = b.src) ∧
    (∀ srcs dst, (ZipFile projWorld srcs dst).err = none →
      (srcs.map (fun s => basePath (absPath projWorld s))).Nodup →
      ∀ a ∈ (ZipFile projWorld srcs dst).written, ∀ b ∈ (ZipFile projWorld srcs dst).written,
        a.name = b.name → a.src = b.src)) :=
  ⟨by decide, entry_names_injective projWorld (by decide)⟩

/-- C10 (as stated, refuted): the entry "../evil.txt" is extracted to
/evil.txt, which did not exist and is not below the destination /dest. -/
theorem Unzip_escapes_destination :
    WF slipWorld ∧
    absent slipWorld ["evil.txt".toList] = true ∧
    (Unzip slipWorld "/evil.zip".toList "/dest".toList).2 = none ∧
    destRoot slipWorld "/dest".toList = ["dest".toList] ∧
    ¬ (["dest".toList] <+: ["evil.txt".toList]) ∧
    fileBytes (Unzip slipWorld "/evil.zip".toList "/dest".toList).1 ["evil.txt".toList]
      = some [6] := by
  decide

/-- Witness of C10 (amended): the archive /in.zip is left as it was by its own
extraction into /dest. -/
theorem Unzip_stays_below_root_witness :
    WF dirClashWorld ∧
    (lookup (Unzip dirClashWorld "/in.zip".toList "/dest".toList).1 ["in.zip".toList] =
        lookup dirClashWorld ["in.zip".toList] ∨
      (["in.zip".toList] <+: destRoot dirClashWorld "/dest".toList ∧
        lookup dirClashWorld ["in.zip".toList] = none ∧
        lookup (Unzip dirClashWorld "/in.zip".toList "/dest".toList).1 ["in.zip".toList]
          = some .dir)) :=
  ⟨by decide,
    Unzip_stays_below_root dirClashWorld (by decide) "/in.zip".toList "/dest".toList _ rfl
      (by decide) ["in.zip".toList] (by decide)⟩

end Easyzip
